import Mathlib

/-!
Verification development for the OakInk2-PreviewTool core
(`src/oakink2_toolkit/dataset.py`).

Python dictionaries are modelled as association lists (`List (K × V)`)
whose order is insertion order; lookup is first-match, which agrees with
Python dictionaries whenever keys are unique (callers provide Nodup
hypotheses where this matters).  Python string-normalisation
(`standardize_tuple`) only canonicalises the textual form of a tuple, so
node keys are modelled as already-normalised strings and
`standardize_tuple` is the identity here.
-/

namespace OakInk2

/-- First-match lookup in an association list (Python `d[k]` / `k in d`). -/
def alookup {κ β : Type} [DecidableEq κ] : List (κ × β) → κ → Option β
  | [], _ => none
  | kv :: rest, k => if kv.1 = k then some kv.2 else alookup rest k

/-- The key list of an association list (Python `d.keys()`). -/
def akeys {κ β : Type} (l : List (κ × β)) : List κ := l.map Prod.fst

/-- The value list of an association list (Python `d.values()`). -/
def avalues {κ β : Type} (l : List (κ × β)) : List β := l.map Prod.snd

/-- Python `d[k] = v`: replace in place if the key exists, else append. -/
def aupdate {κ β : Type} [DecidableEq κ] (l : List (κ × β)) (k : κ) (v : β) :
    List (κ × β) :=
  if (alookup l k).isSome then
    l.map (fun kv => if kv.1 = k then (k, v) else kv)
  else l ++ [(k, v)]

section ALookupLemmas

variable {κ β : Type} [DecidableEq κ]

theorem alookup_isSome_iff (l : List (κ × β)) (k : κ) :
    (alookup l k).isSome ↔ k ∈ akeys l := by
  induction l with
  | nil => simp [alookup, akeys]
  | cons kv rest ih =>
    by_cases h : kv.1 = k
    · subst h; simp [alookup, akeys]
    · simp only [alookup, if_neg h, akeys, List.map_cons, List.mem_cons, ih, akeys]
      constructor
      · exact Or.inr
      · rintro (hh | hh)
        · exact absurd hh.symm h
        · exact hh

theorem alookup_eq_none_iff (l : List (κ × β)) (k : κ) :
    alookup l k = none ↔ k ∉ akeys l := by
  rw [← alookup_isSome_iff]
  cases alookup l k <;> simp

theorem mem_of_alookup_eq_some {l : List (κ × β)} {k : κ} {v : β}
    (h : alookup l k = some v) : (k, v) ∈ l := by
  induction l with
  | nil => simp [alookup] at h
  | cons kv rest ih =>
    by_cases hk : kv.1 = k
    · rw [alookup, if_pos hk] at h
      obtain ⟨h⟩ := h
      have he : (k, kv.2) = kv := by rw [← hk]
      exact he ▸ List.mem_cons_self kv rest
    · rw [alookup, if_neg hk] at h
      exact List.mem_cons_of_mem _ (ih h)

theorem alookup_of_mem_of_nodupkeys {l : List (κ × β)} {k : κ} {v : β}
    (hn : (akeys l).Nodup) (h : (k, v) ∈ l) : alookup l k = some v := by
  induction l with
  | nil => simp at h
  | cons kv rest ih =>
    rw [akeys, List.map_cons, List.nodup_cons] at hn
    rcases List.mem_cons.1 h with h | h
    · subst h; simp [alookup]
    · have hk : kv.1 ≠ k := by
        intro he
        exact hn.1 (he ▸ (List.mem_map_of_mem Prod.fst h))
      rw [alookup, if_neg hk]
      exact ih hn.2 h

theorem alookup_filter_key_ne {l : List (κ × β)} {k n : κ}
    (h : k ≠ n) :
    alookup (l.filter (fun kv => kv.1 ≠ n)) k = alookup l k := by
  induction l with
  | nil => rfl
  | cons kv rest ih =>
    rw [List.filter_cons]
    by_cases hn : kv.1 = n
    · rw [if_neg (by simp [hn]), ih]
      have hk : kv.1 ≠ k := fun he => h (he.symm.trans hn)
      conv_rhs => rw [alookup, if_neg hk]
    · rw [if_pos (by simp [hn])]
      simp only [alookup]
      by_cases hk : kv.1 = k
      · rw [if_pos hk, if_pos hk]
      · rw [if_neg hk, if_neg hk, ih]

theorem values_inj_of_nodup_values {l : List (κ × β)} {k₁ k₂ : κ} {v₁ v₂ : β}
    (hv : (avalues l).Nodup)
    (h₁ : alookup l k₁ = some v₁) (h₂ : alookup l k₂ = some v₂)
    (hne : k₁ ≠ k₂) : v₁ ≠ v₂ := by
  intro he
  subst he
  have hm₁ : (k₁, v₁) ∈ l := mem_of_alookup_eq_some h₁
  have hm₂ : (k₂, v₁) ∈ l := mem_of_alookup_eq_some h₂
  have := List.inj_on_of_nodup_map (f := Prod.snd) hv hm₁ hm₂ rfl
  exact hne (congrArg Prod.fst this)

end ALookupLemmas

/-! ## Raw program-dependency-graph description and node contraction
(`fix_g_info`, dataset.py lines 68-91). -/

/-- The raw PDG file content: `{id_map: node-key → integer id, e: edge list}`. -/
structure GInfo where
  id_map : List (String × Int)
  e : List (Int × Int)
  deriving DecidableEq, Repr

/-- One iteration of the contraction worklist loop in `fix_g_info`
(dataset.py lines 81-89): bridge every in-edge source to every out-edge
target of the node, then delete the node's edges and its id-map entry.
The `none` branch is unreachable when the node is a key of the current
id-map (Python would raise `KeyError` otherwise). -/
def contract_one (g : GInfo) (node : String) : GInfo :=
  match alookup g.id_map node with
  | none => g
  | some node_id =>
    let in_edges := g.e.filter (fun e => e.2 = node_id)
    let out_edges := g.e.filter (fun e => e.1 = node_id)
    let new_edges := in_edges.flatMap (fun e => out_edges.map (fun e2 => (e.1, e2.2)))
    { id_map := g.id_map.filter (fun kv => kv.1 ≠ node),
      e := (g.e ++ new_edges).filter (fun e => e.1 ≠ node_id ∧ e.2 ≠ node_id) }

/-- `fix_g_info` (dataset.py lines 68-91): contract every node whose key is
not in the affordance task name-map, one worklist entry at a time against
the current state. -/
def fix_g_info (g_info : GInfo) (affordance_task_namemap : List (String × String)) :
    GInfo :=
  let node_to_contact :=
    (akeys g_info.id_map).filter (fun k => (alookup affordance_task_namemap k).isNone)
  if node_to_contact.length = 0 then g_info
  else node_to_contact.foldl contract_one g_info

example :
    fix_g_info
      ⟨[("A", 0), ("X1", 1), ("X2", 2), ("B", 3)], [(0, 1), (1, 2), (2, 3)]⟩
      [("A", "a"), ("B", "b")] =
    ⟨[("A", 0), ("B", 3)], [(0, 3)]⟩ := by decide

/-- No edge of the graph touches integer id `x`. -/
def noId (g : GInfo) (x : Int) : Prop := ∀ e ∈ g.e, e.1 ≠ x ∧ e.2 ≠ x

/-- Key `k` has been removed from the id-map. -/
def keyGone (g : GInfo) (k : String) : Prop := ∀ kv ∈ g.id_map, kv.1 ≠ k

theorem contract_one_of_none {g : GInfo} {n : String}
    (h : alookup g.id_map n = none) : contract_one g n = g := by
  simp only [contract_one, h]

theorem contract_one_keep_edge {g : GInfo} {n : String} {nid : Int} {u v : Int}
    (h : alookup g.id_map n = some nid) (he : (u, v) ∈ g.e)
    (hu : u ≠ nid) (hv : v ≠ nid) : (u, v) ∈ (contract_one g n).e := by
  simp only [contract_one, h]
  exact List.mem_filter.2 ⟨List.mem_append_left _ he, by simp [hu, hv]⟩

theorem contract_one_bridge {g : GInfo} {n : String} {nid : Int} {u v : Int}
    (h : alookup g.id_map n = some nid)
    (hin : (u, nid) ∈ g.e) (hout : (nid, v) ∈ g.e)
    (hu : u ≠ nid) (hv : v ≠ nid) : (u, v) ∈ (contract_one g n).e := by
  simp only [contract_one, h]
  refine List.mem_filter.2 ⟨List.mem_append_right _ ?_, by simp [hu, hv]⟩
  refine List.mem_flatMap.2 ⟨(u, nid), List.mem_filter.2 ⟨hin, by simp⟩, ?_⟩
  exact List.mem_map.2 ⟨(nid, v), List.mem_filter.2 ⟨hout, by simp⟩, rfl⟩

theorem contract_one_noId_self {g : GInfo} {n : String} {nid : Int}
    (h : alookup g.id_map n = some nid) : noId (contract_one g n) nid := by
  intro e he
  simp only [contract_one, h] at he
  have := (List.mem_filter.1 he).2
  simpa using this

theorem contract_one_noId_pres {g : GInfo} {n : String} {x : Int}
    (hx : noId g x) : noId (contract_one g n) x := by
  intro e he
  cases hl : alookup g.id_map n with
  | none => rw [contract_one_of_none hl] at he; exact hx e he
  | some nid =>
    simp only [contract_one, hl] at he
    rcases List.mem_append.1 (List.mem_filter.1 he).1 with hm | hm
    · exact hx e hm
    · rcases List.mem_flatMap.1 hm with ⟨e1, he1, hmap⟩
      rcases List.mem_map.1 hmap with ⟨e2, he2, rfl⟩
      have h1 := hx e1 (List.mem_filter.1 he1).1
      have h2 := hx e2 (List.mem_filter.1 he2).1
      exact ⟨h1.1, h2.2⟩

theorem contract_one_keyGone_self (g : GInfo) (n : String) :
    keyGone (contract_one g n) n := by
  intro kv hkv
  cases hl : alookup g.id_map n with
  | none =>
    rw [contract_one_of_none hl] at hkv
    intro he
    exact absurd (alookup_eq_none_iff g.id_map n |>.1 hl)
      (by simpa using (not_not.2 (he ▸ List.mem_map_of_mem Prod.fst hkv)))
  | some nid =>
    simp only [contract_one, hl] at hkv
    have := (List.mem_filter.1 hkv).2
    simpa using this

theorem contract_one_keyGone_pres {g : GInfo} {n k : String}
    (hk : keyGone g k) : keyGone (contract_one g n) k := by
  intro kv hkv
  cases hl : alookup g.id_map n with
  | none => rw [contract_one_of_none hl] at hkv; exact hk kv hkv
  | some nid =>
    simp only [contract_one, hl] at hkv
    exact hk kv (List.mem_filter.1 hkv).1

theorem contract_one_lookup_ne {g : GInfo} {n m : String}
    (hm : m ≠ n) : alookup (contract_one g n).id_map m = alookup g.id_map m := by
  cases hl : alookup g.id_map n with
  | none => rw [contract_one_of_none hl]
  | some nid =>
    simp only [contract_one, hl]
    exact alookup_filter_key_ne hm

/-- The state of the chain `A → X₁ → X₂ → B` during the contraction worklist:
`m1`/`m2` say whether `X₁`/`X₂` are still waiting in the worklist. -/
def chainInv (X₁ X₂ : String) (a x1 x2 b : Int) (m1 m2 : Prop) (g : GInfo) :
    Prop :=
  (m1 ∧ m2 ∧ (a, x1) ∈ g.e ∧ (x1, x2) ∈ g.e ∧ (x2, b) ∈ g.e) ∨
  (¬m1 ∧ m2 ∧ (a, x2) ∈ g.e ∧ (x2, b) ∈ g.e ∧ noId g x1 ∧ keyGone g X₁) ∨
  (m1 ∧ ¬m2 ∧ (a, x1) ∈ g.e ∧ (x1, b) ∈ g.e ∧ noId g x2 ∧ keyGone g X₂) ∨
  (¬m1 ∧ ¬m2 ∧ (a, b) ∈ g.e ∧ noId g x1 ∧ noId g x2 ∧
    keyGone g X₁ ∧ keyGone g X₂)

theorem chainInv_iff {X₁ X₂ : String} {a x1 x2 b : Int}
    {m1 m2 m1' m2' : Prop} {g : GInfo}
    (h1 : m1 ↔ m1') (h2 : m2 ↔ m2') :
    chainInv X₁ X₂ a x1 x2 b m1 m2 g → chainInv X₁ X₂ a x1 x2 b m1' m2' g := by
  unfold chainInv
  rw [h1, h2]
  exact id

section ChainFold

variable (g₀ : GInfo) (aff : List (String × String))
variable (A X₁ X₂ B : String) (a x1 x2 b : Int)

/-- Worklist induction for the chain-contraction argument: provided every
remaining worklist node is an original, still-untouched invalid node, one
pass of the worklist drives the chain invariant to its final state. -/
theorem chain_fold
    (hv : (avalues g₀.id_map).Nodup)
    (hA : alookup g₀.id_map A = some a) (hX1 : alookup g₀.id_map X₁ = some x1)
    (hX2 : alookup g₀.id_map X₂ = some x2) (hB : alookup g₀.id_map B = some b)
    (hAv : (alookup aff A).isSome) (hBv : (alookup aff B).isSome)
    (hX12 : X₁ ≠ X₂) :
    ∀ (rem : List String) (g : GInfo),
      rem.Nodup →
      (∀ n ∈ rem, n ∈ akeys g₀.id_map ∧ (alookup aff n).isNone) →
      (∀ n ∈ rem, alookup g.id_map n = alookup g₀.id_map n) →
      chainInv X₁ X₂ a x1 x2 b (X₁ ∈ rem) (X₂ ∈ rem) g →
      chainInv X₁ X₂ a x1 x2 b False False (rem.foldl contract_one g) := by
  intro rem
  induction rem with
  | nil =>
    intro g _ _ _ hinv
    exact chainInv_iff (by simp) (by simp) hinv
  | cons n t ih =>
    intro g hnd hmem hfid hinv
    have hn := hmem n (List.mem_cons_self n t)
    have hnK : n ∈ akeys g₀.id_map := hn.1
    have hnI : (alookup aff n).isNone := hn.2
    -- the current id of `n` agrees with its original id
    obtain ⟨nid, hnid0⟩ :=
      Option.isSome_iff_exists.1 ((alookup_isSome_iff g₀.id_map n).2 hnK)
    have hnid : alookup g.id_map n = some nid :=
      (hfid n (List.mem_cons_self n t)).trans hnid0
    -- valid nodes are never on the worklist
    have hAn : A ≠ n := by
      intro he; rw [he] at hAv; rw [Option.isNone_iff_eq_none.1 hnI] at hAv; simp at hAv
    have hBn : B ≠ n := by
      intro he; rw [he] at hBv; rw [Option.isNone_iff_eq_none.1 hnI] at hBv; simp at hBv
    have hna : a ≠ nid := values_inj_of_nodup_values hv hA hnid0 hAn
    have hnb : b ≠ nid := values_inj_of_nodup_values hv hB hnid0 hBn
    have hX1t : X₁ ∈ t → X₁ ≠ n := by
      intro hm he; exact ((List.nodup_cons.1 hnd).1 (he ▸ hm))
    have hX2t : X₂ ∈ t → X₂ ≠ n := by
      intro hm he; exact ((List.nodup_cons.1 hnd).1 (he ▸ hm))
    rw [List.foldl_cons]
    apply ih (contract_one g n) (List.nodup_cons.1 hnd).2
      (fun m hm => hmem m (List.mem_cons_of_mem n hm))
      (fun m hm => by
        have hmn : m ≠ n := fun he => ((List.nodup_cons.1 hnd).1 (he ▸ hm))
        rw [contract_one_lookup_ne hmn]
        exact hfid m (List.mem_cons_of_mem n hm))
    -- establish the invariant for the contracted graph
    by_cases h1 : X₁ = n
    · -- contracting X₁ itself: nid = x1
      subst h1
      have hxx : nid = x1 := by
        rw [hnid0] at hX1; exact (Option.some.injEq _ _ ▸ hX1 : _)
      subst hxx
      have hX1nt : X₁ ∉ t := (List.nodup_cons.1 hnd).1
      have h2n : X₂ ≠ X₁ := hX12.symm
      rcases hinv with ⟨_, hm2, he1, he2, he3⟩ | ⟨hm1, _, _, _, _, _⟩ |
        ⟨_, hm2, he1, he2, hno2, hkg2⟩ | ⟨hm1, _, _, _, _, _, _⟩
      · -- X₂ still waiting
        have hx2n : x2 ≠ nid :=
          values_inj_of_nodup_values hv hX2 hX1 h2n
        refine Or.inr (Or.inl ⟨hX1nt, ?_, ?_, ?_, ?_, ?_⟩)
        · rcases List.mem_cons.1 hm2 with he | he
          · exact absurd he h2n
          · exact he
        · exact contract_one_bridge hnid he1 he2 hna hx2n
        · exact contract_one_keep_edge hnid he3 hx2n hnb
        · exact contract_one_noId_self hnid
        · exact contract_one_keyGone_self g X₁
      · exact absurd (List.mem_cons_self X₁ t) hm1
      · -- X₂ already contracted
        have hm2t : X₂ ∉ t := fun hm => hm2 (List.mem_cons_of_mem _ hm)
        refine Or.inr (Or.inr (Or.inr ⟨hX1nt, hm2t, ?_, ?_, ?_, ?_, ?_⟩))
        · exact contract_one_bridge hnid he1 he2 hna hnb
        · exact contract_one_noId_self hnid
        · exact contract_one_noId_pres hno2
        · exact contract_one_keyGone_self g X₁
        · exact contract_one_keyGone_pres hkg2
      · exact absurd (List.mem_cons_self X₁ t) hm1
    · by_cases h2 : X₂ = n
      · -- contracting X₂ itself: nid = x2
        subst h2
        have hxx : nid = x2 := by
          rw [hnid0] at hX2; exact (Option.some.injEq _ _ ▸ hX2 : _)
        subst hxx
        have hX2nt : X₂ ∉ t := (List.nodup_cons.1 hnd).1
        have hx1n : x1 ≠ nid :=
          values_inj_of_nodup_values hv hX1 hX2 (fun he => h1 he)
        rcases hinv with ⟨hm1, _, he1, he2, he3⟩ | ⟨hm1, _, he1, he2, hno1, hkg1⟩ |
          ⟨_, hm2, _, _, _, _⟩ | ⟨_, hm2, _, _, _, _, _⟩
        · -- X₁ still waiting
          have hm1t : X₁ ∈ t := by
            rcases List.mem_cons.1 hm1 with he | he
            · exact absurd he h1
            · exact he
          refine Or.inr (Or.inr (Or.inl ⟨hm1t, hX2nt, ?_, ?_, ?_, ?_⟩))
          · exact contract_one_keep_edge hnid he1 hna hx1n
          · exact contract_one_bridge hnid he2 he3 hx1n hnb
          · exact contract_one_noId_self hnid
          · exact contract_one_keyGone_self g X₂
        · -- X₁ already contracted
          have hm1t : X₁ ∉ t := fun hm => hm1 (List.mem_cons_of_mem _ hm)
          refine Or.inr (Or.inr (Or.inr ⟨hm1t, hX2nt, ?_, ?_, ?_, ?_, ?_⟩))
          · exact contract_one_bridge hnid he1 he2 hna hnb
          · exact contract_one_noId_pres hno1
          · exact contract_one_noId_self hnid
          · exact contract_one_keyGone_pres hkg1
          · exact contract_one_keyGone_self g X₂
        · exact absurd (List.mem_cons_self X₂ t) hm2
        · exact absurd (List.mem_cons_self X₂ t) hm2
      · -- contracting an unrelated invalid node
        have hx1n : x1 ≠ nid :=
          values_inj_of_nodup_values hv hX1 hnid0 (fun he => h1 he)
        have hx2n : x2 ≠ nid :=
          values_inj_of_nodup_values hv hX2 hnid0 (fun he => h2 he)
        have hmm1 : (X₁ ∈ n :: t) ↔ (X₁ ∈ t) := by
          simp [List.mem_cons, fun he => h1 he]
        have hmm2 : (X₂ ∈ n :: t) ↔ (X₂ ∈ t) := by
          simp [List.mem_cons, fun he => h2 he]
        rcases hinv with ⟨hm1, hm2, he1, he2, he3⟩ |
          ⟨hm1, hm2, he1, he2, hno1, hkg1⟩ |
          ⟨hm1, hm2, he1, he2, hno2, hkg2⟩ |
          ⟨hm1, hm2, he1, hno1, hno2, hkg1, hkg2⟩
        · exact Or.inl ⟨hmm1.1 hm1, hmm2.1 hm2,
            contract_one_keep_edge hnid he1 hna hx1n,
            contract_one_keep_edge hnid he2 hx1n hx2n,
            contract_one_keep_edge hnid he3 hx2n hnb⟩
        · exact Or.inr (Or.inl ⟨fun hm => hm1 (hmm1.2 hm), hmm2.1 hm2,
            contract_one_keep_edge hnid he1 hna hx2n,
            contract_one_keep_edge hnid he2 hx2n hnb,
            contract_one_noId_pres hno1, contract_one_keyGone_pres hkg1⟩)
        · exact Or.inr (Or.inr (Or.inl ⟨hmm1.1 hm1, fun hm => hm2 (hmm2.2 hm),
            contract_one_keep_edge hnid he1 hna hx1n,
            contract_one_keep_edge hnid he2 hx1n hnb,
            contract_one_noId_pres hno2, contract_one_keyGone_pres hkg2⟩))
        · exact Or.inr (Or.inr (Or.inr ⟨fun hm => hm1 (hmm1.2 hm),
            fun hm => hm2 (hmm2.2 hm),
            contract_one_keep_edge hnid he1 hna hnb,
            contract_one_noId_pres hno1, contract_one_noId_pres hno2,
            contract_one_keyGone_pres hkg1, contract_one_keyGone_pres hkg2⟩))

end ChainFold

/-- C1: node contraction bridges chains of invalid nodes transitively: in any
well-formed raw graph (unique node keys, distinct integer ids) containing a
chain `A → X₁ → X₂ → B` where `A`, `B` are keys of the affordance task
name-map and `X₁`, `X₂` are not, `fix_g_info` produces a graph containing the
edge `A → B`, while neither `X₁` nor `X₂` remains in the id-map and neither
of their ids occurs in any edge. -/
theorem fix_g_info_bridges_invalid_chain
    (g₀ : GInfo) (aff : List (String × String))
    (A X₁ X₂ B : String) (a x1 x2 b : Int)
    (hk : (akeys g₀.id_map).Nodup) (hv : (avalues g₀.id_map).Nodup)
    (hA : alookup g₀.id_map A = some a) (hX1 : alookup g₀.id_map X₁ = some x1)
    (hX2 : alookup g₀.id_map X₂ = some x2) (hB : alookup g₀.id_map B = some b)
    (hAv : (alookup aff A).isSome) (hBv : (alookup aff B).isSome)
    (hX1i : (alookup aff X₁).isNone) (hX2i : (alookup aff X₂).isNone)
    (hX12 : X₁ ≠ X₂)
    (he1 : (a, x1) ∈ g₀.e) (he2 : (x1, x2) ∈ g₀.e) (he3 : (x2, b) ∈ g₀.e) :
    (a, b) ∈ (fix_g_info g₀ aff).e ∧
    (∀ kv ∈ (fix_g_info g₀ aff).id_map, kv.1 ≠ X₁ ∧ kv.1 ≠ X₂) ∧
    (∀ e ∈ (fix_g_info g₀ aff).e,
      (e.1 ≠ x1 ∧ e.2 ≠ x1) ∧ (e.1 ≠ x2 ∧ e.2 ≠ x2)) := by
  have hX1K : X₁ ∈ akeys g₀.id_map :=
    (alookup_isSome_iff g₀.id_map X₁).1 (by rw [hX1]; rfl)
  have hX2K : X₂ ∈ akeys g₀.id_map :=
    (alookup_isSome_iff g₀.id_map X₂).1 (by rw [hX2]; rfl)
  have hX1W : X₁ ∈ (akeys g₀.id_map).filter
      (fun k => (alookup aff k).isNone) :=
    List.mem_filter.2 ⟨hX1K, by rw [Option.isNone_iff_eq_none.1 hX1i]; rfl⟩
  have hX2W : X₂ ∈ (akeys g₀.id_map).filter
      (fun k => (alookup aff k).isNone) :=
    List.mem_filter.2 ⟨hX2K, by rw [Option.isNone_iff_eq_none.1 hX2i]; rfl⟩
  have hlen : ¬ ((akeys g₀.id_map).filter
      (fun k => (alookup aff k).isNone)).length = 0 := by
    intro h0
    rw [List.length_eq_zero] at h0
    rw [h0] at hX1W
    simp at hX1W
  have hfold := chain_fold g₀ aff A X₁ X₂ B a x1 x2 b hv hA hX1 hX2 hB hAv hBv
    hX12 ((akeys g₀.id_map).filter (fun k => (alookup aff k).isNone)) g₀
    (List.Nodup.filter _ hk)
    (fun n hn => by
      have := List.mem_filter.1 hn
      exact ⟨this.1, by simpa using this.2⟩)
    (fun n _ => rfl)
    (Or.inl ⟨hX1W, hX2W, he1, he2, he3⟩)
  have hfix : fix_g_info g₀ aff =
      ((akeys g₀.id_map).filter (fun k => (alookup aff k).isNone)).foldl
        contract_one g₀ := by
    simp only [fix_g_info]
    rw [if_neg hlen]
  rw [hfix]
  rcases hfold with ⟨h, _⟩ | ⟨_, h, _⟩ | ⟨h, _⟩ | ⟨_, _, hab, hn1, hn2, hg1, hg2⟩
  · exact absurd h not_false
  · exact absurd h not_false
  · exact absurd h not_false
  · refine ⟨hab, fun kv hkv => ⟨hg1 kv hkv, hg2 kv hkv⟩,
      fun e he => ⟨hn1 e he, hn2 e he⟩⟩

/-- Witness for C1 at the concrete chain `A → X1 → X2 → B`. -/
theorem fix_g_info_bridges_invalid_chain_witness :
    ((0 : Int), (3 : Int)) ∈
      (fix_g_info ⟨[("A", 0), ("X1", 1), ("X2", 2), ("B", 3)],
        [(0, 1), (1, 2), (2, 3)]⟩ [("A", "pour"), ("B", "serve")]).e ∧
    (∀ kv ∈ (fix_g_info ⟨[("A", 0), ("X1", 1), ("X2", 2), ("B", 3)],
        [(0, 1), (1, 2), (2, 3)]⟩ [("A", "pour"), ("B", "serve")]).id_map,
      kv.1 ≠ "X1" ∧ kv.1 ≠ "X2") ∧
    (∀ e ∈ (fix_g_info ⟨[("A", 0), ("X1", 1), ("X2", 2), ("B", 3)],
        [(0, 1), (1, 2), (2, 3)]⟩ [("A", "pour"), ("B", "serve")]).e,
      (e.1 ≠ 1 ∧ e.2 ≠ 1) ∧ (e.1 ≠ 2 ∧ e.2 ≠ 2)) :=
  fix_g_info_bridges_invalid_chain
    ⟨[("A", 0), ("X1", 1), ("X2", 2), ("B", 3)], [(0, 1), (1, 2), (2, 3)]⟩
    [("A", "pour"), ("B", "serve")] "A" "X1" "X2" "B" 0 1 2 3
    (by decide) (by decide) (by decide) (by decide) (by decide) (by decide)
    (by decide) (by decide) (by decide) (by decide) (by decide)
    (by decide) (by decide) (by decide)

/-! ## Task name maps
`program.suffix_affordance_primitive_segment` / `suffix_transient_primitive_segment`
live in `program.py`, which is not part of the provided sources; they are
modelled from the spec (§4.1).  The merge/reorder step below them is from
`dataset.py` lines 332-339. -/

/-- One value of the program metadata mapping (spec §6): primitive type,
interaction mode and three object-list variants. -/
structure ProgramItem where
  primitive : String
  interaction_mode : String := ""
  obj_list : List String := []
  obj_list_lh : Option (List String) := none
  obj_list_rh : Option (List String) := none
  deriving DecidableEq, Repr

/-- Little-endian decimal digit characters of `n`; the first argument is
structural fuel (`n` itself always suffices). -/
def natDigitsLE : Nat → Nat → List Char
  | 0, _ => []
  | _ + 1, 0 => []
  | fuel + 1, n + 1 =>
    Nat.digitChar ((n + 1) % 10) :: natDigitsLE fuel ((n + 1) / 10)

/-- Decimal digit list of a natural number, most significant first
(the `<n>` of a `<task-name>#<n>` identifier). -/
def natDecimal (n : Nat) : List Char := (natDigitsLE n n).reverse

/-- Decimal value of a little-endian digit-character list (inverse of
`natDigitsLE`, used to prove the rendering injective). -/
def decimalValLE : List Char → Nat
  | [] => 0
  | c :: rest => (c.toNat - 48) + 10 * decimalValLE rest

/-- Modelled from the spec: identifiers have "the form `<task-name>` or
`<task-name>#<n>` where `n` disambiguates repeated task names within the
same subset"; the first occurrence keeps the plain name. -/
def identRender (name : String) (n : Nat) : String :=
  if n = 0 then name else name ++ "#" ++ String.mk (natDecimal n)

/-- Modelled from the spec: walk the subset in natural key order, giving each
key its task name suffixed with the number of earlier occurrences of that
name (`seen` accumulates the names already passed). -/
def assignIdents (seen : List String) :
    List (String × String) → List (String × String)
  | [] => []
  | kn :: rest =>
    (kn.1, identRender kn.2 (seen.count kn.2)) ::
      assignIdents (seen ++ [kn.2]) rest

/-- Modelled from the spec: `program.suffix_affordance_primitive_segment`
(missing `program.py`): restrict the program metadata to keys whose
primitive type the external classifier does not mark transient, and assign
disambiguated identifiers in subset key order. -/
def suffix_affordance_primitive_segment (is_transient : String → Bool)
    (program_info : List (String × ProgramItem)) : List (String × String) :=
  assignIdents []
    ((program_info.filter (fun kv => ¬ is_transient kv.2.primitive)).map
      (fun kv => (kv.1, kv.2.primitive)))

/-- Modelled from the spec: `program.suffix_transient_primitive_segment`
(missing `program.py`): the transient-typed subset, same assignment rule. -/
def suffix_transient_primitive_segment (is_transient : String → Bool)
    (program_info : List (String × ProgramItem)) : List (String × String) :=
  assignIdents []
    ((program_info.filter (fun kv => is_transient kv.2.primitive)).map
      (fun kv => (kv.1, kv.2.primitive)))

/-- Python `{**a, **b}` (dataset.py line 334): entries of `a` in order, keys
of `b` overriding or appended. -/
def merge_task_namemap (a b : List (String × String)) : List (String × String) :=
  b.foldl (fun acc kv => aupdate acc kv.1 kv.2) a

/-- The reorder loop of dataset.py lines 336-338: iterate the metadata keys
in order, re-inserting each key's merged identifier.  A key absent from the
merged map would raise `KeyError` in Python; the model drops it. -/
def reorder_task_namemap (program_info : List (String × ProgramItem))
    (m : List (String × String)) : List (String × String) :=
  program_info.filterMap (fun kv => (alookup m kv.1).map (fun v => (kv.1, v)))

/-- The merged, reordered full task name-map of `load_complex_task`
(dataset.py lines 332-338). -/
def full_task_namemap (is_transient : String → Bool)
    (program_info : List (String × ProgramItem)) : List (String × String) :=
  reorder_task_namemap program_info
    (merge_task_namemap
      (suffix_affordance_primitive_segment is_transient program_info)
      (suffix_transient_primitive_segment is_transient program_info))

example :
    full_task_namemap (fun s => s = "move")
      [("('k1',)", { primitive := "pour" }),
       ("('k2',)", { primitive := "move" }),
       ("('k3',)", { primitive := "pour" })] =
    [("('k1',)", "pour"), ("('k2',)", "move"), ("('k3',)", "pour#1")] := by
  decide

/-! ## The directed graph over task identifiers (networkx `DiGraph` model)
and the PDG construction of `load_complex_task` (dataset.py lines 345-358). -/

/-- A directed graph with insertion-ordered node and edge lists, as built by
`networkx.DiGraph.add_node` / `add_edge` (set semantics on both). -/
structure DiGraph where
  nodes : List String
  edges : List (String × String)
  deriving DecidableEq, Repr

def addNode (g : DiGraph) (v : String) : DiGraph :=
  if v ∈ g.nodes then g else { g with nodes := g.nodes ++ [v] }

/-- `add_edge` also inserts missing endpoints as nodes. -/
def addEdge (g : DiGraph) (u v : String) : DiGraph :=
  let g1 := addNode (addNode g u) v
  { g1 with edges := if (u, v) ∈ g1.edges then g1.edges else g1.edges ++ [(u, v)] }

/-- `affordance_task_namemap[k]` as used when building the PDG.  A lookup
that would raise `KeyError` in Python is modelled with a `""` default; the
theorems' well-formedness hypotheses make it total. -/
def pdg_node_of (aff : List (String × String)) (k : String) : String :=
  (alookup aff k).getD ""

/-- `_rev_id_map[id]` (dataset.py line 352): the id-map reversed by a Python
dict comprehension, so the *last* binding of an id wins. -/
def pdg_seg_of (rev_id_map : List (Int × String)) (i : Int) : String :=
  (alookup rev_id_map i).getD ""

/-- The reversed id-map `{v: k for k, v in id_map.items()}`, modelled with
last-binding-wins lookup. -/
def rev_id_map_of (gfix : GInfo) : List (Int × String) :=
  (gfix.id_map.map (fun kv => (kv.2, kv.1))).reverse

/-- The PDG construction loop of dataset.py lines 348-357: one node per key
of the contracted id-map (translated through the affordance name-map), then
one edge per contracted edge, translated through the reversed id-map and
the affordance name-map. -/
def build_pdg (gfix : GInfo) (aff : List (String × String)) : DiGraph :=
  let g1 := (akeys gfix.id_map).foldl
    (fun acc k => addNode acc (pdg_node_of aff k)) ⟨[], []⟩
  gfix.e.foldl (fun acc e =>
    addEdge acc (pdg_node_of aff (pdg_seg_of (rev_id_map_of gfix) e.1))
      (pdg_node_of aff (pdg_seg_of (rev_id_map_of gfix) e.2)))
    g1

/-! ## Task records and hydration
Tensors are modelled per scalar stream: a hydrated complex-task parameter is
the frame-indexed family `Int → Int` produced by the `_collect_*` stacking
helpers, and a hydrated primitive-task parameter is a concrete `List Int`
over its own frame window.  `tool.index_param` / `tool.zero_param` live in
`tool.py`, which is not part of the provided sources; they are modelled from
the spec (§4.5). -/

/-- The per-sequence annotation blob (spec §6): recorded frame ids, scene
object list, and the per-frame parameter streams the `_collect_*` helpers
stack. -/
structure AnnoData where
  mocap_frame_id_list : List Int
  obj_list : List String
  smplx : Int → Int
  lh : Int → Int
  rh : Int → Int
  obj_transf : String → Int → Int

/-- Python `min` over a list (raises on empty; the model returns 0 there,
a case no caller exercises). -/
def listMin : List Int → Int
  | [] => 0
  | h :: t => t.foldl min h

/-- Python `max` over a list (raises on empty; the model returns 0 there). -/
def listMax : List Int → Int
  | [] => 0
  | h :: t => t.foldl max h

/-- `OakInk2__ComplexTask` (structure/complex_task.py, fields as constructed
in dataset.py lines 388-401 plus the hydrated fields of lines 251-278). -/
structure ComplexTask where
  seq_key : String := ""
  seq_token : String := ""
  is_complex : Bool := false
  exec_path : List String := []
  exec_path_affordance : List String := []
  exec_range_map : List (String × String) := []
  pdg : DiGraph := ⟨[], []⟩
  task_target : String := ""
  scene_desc : Option String := none
  recipe : Option String := none
  frame_range : Option (Int × Int) := none
  scene_obj_list : Option (List String) := none
  instantiated : Bool := false
  smplx_param : Option (Int → Int) := none
  lh_param : Option (Int → Int) := none
  rh_param : Option (Int → Int) := none
  obj_transf : Option (List (String × (Int → Int))) := none

/-- `instantiate_complex_task` (dataset.py lines 251-278): flag-gated
hydration of the complex-task record from the annotation blob. -/
def instantiate_complex_task (anno : AnnoData) (c : ComplexTask) : ComplexTask :=
  if c.instantiated then c
  else
    { c with
      frame_range := some (listMin anno.mocap_frame_id_list,
        listMax anno.mocap_frame_id_list),
      scene_obj_list := some anno.obj_list,
      smplx_param := some anno.smplx,
      lh_param := some anno.lh,
      rh_param := some anno.rh,
      obj_transf := some (anno.obj_list.map (fun o => (o, anno.obj_transf o))),
      instantiated := true }

/-- The external per-sequence file contents `load_complex_task` consumes:
program metadata, the raw PDG description, the task target, the optional
initial-condition file, the optional side caches, and the annotation blob. -/
structure SeqEnv where
  program_info : List (String × ProgramItem)
  g_info : GInfo
  task_target : String := ""
  initial_condition : Option (String × String) := none
  frame_id_cache : Option (List Int) := none
  obj_list_cache : Option (List String) := none
  anno : AnnoData

/-- `load_complex_task` (dataset.py lines 323-404), with the external
classifier and file contents passed explicitly. -/
def load_complex_task (is_transient : String → Bool) (env : SeqEnv)
    (seq_key : String) (return_instantiated : Bool) : ComplexTask :=
  let seq_token := seq_key.replace "/" "++"
  let affordance_task_namemap :=
    suffix_affordance_primitive_segment is_transient env.program_info
  let full := full_task_namemap is_transient env.program_info
  let rev_full := full.map (fun kv => (kv.2, kv.1))
  let g_fixed := fix_g_info env.g_info affordance_task_namemap
  let pdg := build_pdg g_fixed affordance_task_namemap
  let res : ComplexTask :=
    { seq_key := seq_key
      seq_token := seq_token
      is_complex := decide (0 < affordance_task_namemap.length)
      exec_path := avalues full
      exec_path_affordance := avalues affordance_task_namemap
      exec_range_map := rev_full
      pdg := pdg
      task_target := env.task_target
      scene_desc := env.initial_condition.map Prod.fst
      recipe := env.initial_condition.map Prod.snd
      frame_range :=
        if ¬ return_instantiated then
          env.frame_id_cache.map (fun l => (listMin l, listMax l))
        else none
      scene_obj_list :=
        if ¬ return_instantiated then env.obj_list_cache else none }
  if return_instantiated then instantiate_complex_task env.anno res else res

/-- `OakInk2__PrimitiveTask` (structure/primitive_task.py, fields as
constructed in dataset.py lines 492-507 plus the hydrated fields of lines
190-249). -/
structure PrimitiveTask where
  seq_key : String := ""
  seq_token : String := ""
  primitive_task : String := ""
  task_desc : String := ""
  transient : Bool := false
  hand_involved : String := ""
  interaction_mode : String := ""
  frame_range : Int × Int := (0, 0)
  frame_range_lh : Option (Int × Int) := none
  frame_range_rh : Option (Int × Int) := none
  scene_obj_list : Option (List String) := none
  task_obj_list : List String := []
  lh_obj_list : Option (List String) := none
  rh_obj_list : Option (List String) := none
  instantiated : Bool := false
  smplx_param : Option (List Int) := none
  lh_param : Option (List Int) := none
  rh_param : Option (List Int) := none
  lh_in_range_mask : Option (List Bool) := none
  rh_in_range_mask : Option (List Bool) := none
  obj_transf : Option (List (String × List Int)) := none

/-- Python `list(range(lo, hi))`. -/
def intRange (lo hi : Int) : List Int :=
  (List.range (hi - lo).toNat).map (fun (i : Nat) => lo + (i : Int))

/-- Modelled from the spec: `tool.index_param` (missing `tool.py`) slices the
parent's frame-indexed stream at the requested frame list, zero-pads `l_pad`
frames at the head and `r_pad` at the tail, and returns a mask that is true
exactly on the genuinely-sliced frames. -/
def index_param (param : Int → Int) (frame_list : List Int)
    (l_pad r_pad : Int) : List Int × List Bool :=
  (List.replicate l_pad.toNat 0 ++ frame_list.map param ++
     List.replicate r_pad.toNat 0,
   List.replicate l_pad.toNat false ++
     List.replicate frame_list.length true ++
     List.replicate r_pad.toNat false)

/-- Modelled from the spec: `tool.zero_param` (missing `tool.py`) produces an
all-zero stream of the requested length with an all-false mask; the `param`
argument only fixes the tensor shapes in the Python original. -/
def zero_param (param : Int → Int) (n : Nat) : List Int × List Bool :=
  (List.replicate n 0, List.replicate n false)

/-- The `complex_task_data` actually used by `instantiate_primitive_task`
(dataset.py lines 196-197): the caller's record if it is hydrated, else a
freshly loaded hydrated one. -/
def resolve_complex (fresh : ComplexTask) : Option ComplexTask → ComplexTask
  | none => fresh
  | some cd => if cd.instantiated then cd else fresh

/-- `instantiate_primitive_task` (dataset.py lines 190-249).  The second
component of the result is the caller-visible argument record after the
call: the Python body only rebinds its local name (line 197) and never
assigns an attribute of the passed complex task, so it is returned
unchanged. -/
def instantiate_primitive_task (is_transient : String → Bool) (env : SeqEnv)
    (p : PrimitiveTask) (c : Option ComplexTask) :
    PrimitiveTask × Option ComplexTask :=
  if p.instantiated then (p, c)
  else
    let cd := resolve_complex (load_complex_task is_transient env p.seq_key true) c
    let frame_range := p.frame_range
    let frame_list := intRange frame_range.1 frame_range.2
    let smplx_res := index_param (cd.smplx_param.getD (fun _ => 0)) frame_list 0 0
    let lh_res :=
      match p.frame_range_lh with
      | some fr =>
        index_param (cd.lh_param.getD (fun _ => 0)) (intRange fr.1 fr.2)
          (max 0 (fr.1 - frame_range.1)) (max 0 (frame_range.2 - fr.2))
      | none => zero_param (cd.lh_param.getD (fun _ => 0)) frame_list.length
    let rh_res :=
      match p.frame_range_rh with
      | some fr =>
        index_param (cd.rh_param.getD (fun _ => 0)) (intRange fr.1 fr.2)
          (max 0 (fr.1 - frame_range.1)) (max 0 (frame_range.2 - fr.2))
      | none => zero_param (cd.rh_param.getD (fun _ => 0)) frame_list.length
    let obj_transf := p.task_obj_list.foldl (fun acc obj_id =>
        match alookup (cd.obj_transf.getD []) obj_id with
        | none => acc
        | some f => aupdate acc obj_id (frame_list.map f)) []
    ({ p with
        scene_obj_list := cd.scene_obj_list
        smplx_param := some smplx_res.1
        lh_param := some lh_res.1
        rh_param := some rh_res.1
        lh_in_range_mask := some lh_res.2
        rh_in_range_mask := some rh_res.2
        obj_transf := some obj_transf
        task_obj_list :=
          p.task_obj_list.filter (fun el => (alookup obj_transf el).isSome)
        lh_obj_list :=
          p.lh_obj_list.map
            (fun l => l.filter (fun el => (alookup obj_transf el).isSome))
        rh_obj_list :=
          p.rh_obj_list.map
            (fun l => l.filter (fun el => (alookup obj_transf el).isSome))
        instantiated := true },
      c)

/-! ## Affordance records and mesh hydration (dataset.py lines 172-188),
with mesh values abstracted over an arbitrary type `μ`. -/

/-- A hydrated `obj_mesh` field: one mesh if the object owns a model, else a
mapping from part id to mesh. -/
inductive MeshVal (μ : Type) where
  | single (m : μ)
  | parts (d : List (String × μ))

/-- `OakInk2__Affordance` (structure/affordance.py). -/
structure Affordance (μ : Type) where
  instantiated : Bool := false
  obj_id : String := ""
  obj_name : String := ""
  has_model : Bool := false
  obj_instance_id : String := ""
  obj_part_id : List String := []
  affordance_list : List String := []
  affordance_instantiation_list : List String := []
  obj_mesh : Option (MeshVal μ) := none

/-- The cache-or-load step of dataset.py lines 177-179 / 183-185 over the
process-local `obj_cache`. -/
def cache_fetch {μ : Type} (load : String → μ) (cache : List (String × μ))
    (pid : String) : List (String × μ) × μ :=
  match alookup cache pid with
  | some m => (cache, m)
  | none => (cache ++ [(pid, load pid)], load pid)

/-- `instantiate_affordance` (dataset.py lines 172-188): flag-gated mesh
hydration through the dataset's `obj_cache` (threaded explicitly). -/
def instantiate_affordance {μ : Type} (load : String → μ)
    (cache : List (String × μ)) (a : Affordance μ) :
    List (String × μ) × Affordance μ :=
  if a.instantiated then (cache, a)
  else if ¬ a.has_model then
    let acc := a.obj_part_id.foldl
      (fun (acc : List (String × μ) × List (String × μ)) pid =>
        let fetched := cache_fetch load acc.1 pid
        (fetched.1, aupdate acc.2 pid fetched.2))
      (cache, [])
    (acc.1, { a with obj_mesh := some (MeshVal.parts acc.2), instantiated := true })
  else
    let fetched := cache_fetch load cache a.obj_id
    (fetched.1,
      { a with obj_mesh := some (MeshVal.single fetched.2), instantiated := true })

/-! ## `get_part_tree_root` (dataset.py lines 102-105) -/

/-- `get_part_tree_root`: the while loop `while obj_id in rev_part_tree:
obj_id = rev_part_tree[obj_id]`, embedded with explicit fuel (any fuel at
least the parent-chain depth gives the loop's result). -/
def get_part_tree_root (rev_part_tree : List (String × String)) :
    Nat → String → String
  | 0, obj_id => obj_id
  | fuel + 1, obj_id =>
    match alookup rev_part_tree obj_id with
    | some parent => get_part_tree_root rev_part_tree fuel parent
    | none => obj_id

/-- The node reached after exactly `n` parent-link hops (staying put once the
root is reached). -/
def iterParent (rev_part_tree : List (String × String)) (obj_id : String) :
    Nat → String
  | 0 => obj_id
  | n + 1 =>
    match alookup rev_part_tree (iterParent rev_part_tree obj_id n) with
    | some p => p
    | none => iterParent rev_part_tree obj_id n

/-! ## `load_obj` (dataset.py lines 24-34) -/

/-- `os.path.splitext(p)[-1]` for a plain file name (no path separators):
the suffix starting at the last dot, except that a name consisting only of
leading dots up to that position has no extension. -/
def splitext_ext (cs : List Char) : List Char :=
  match cs.reverse.findIdx? (fun c => c = '.') with
  | none => []
  | some r =>
    let i := cs.length - 1 - r
    if (cs.take i).all (fun c => c = '.') then [] else cs.drop i

/-- The `candidate_list` of `load_obj` (dataset.py line 26): directory
entries with extension `.obj` or `.ply`. -/
def obj_candidates (listing : List String) : List String :=
  listing.filter (fun el =>
    splitext_ext el.data = ".obj".data ∨ splitext_ext el.data = ".ply".data)

/-- `load_obj` (dataset.py lines 24-34) given the model directory's listing:
`assert len(candidate_list) == 1` makes zero or several candidates a hard
failure (`none`); with exactly one candidate the mesh load proceeds
(`trimesh.load` abstracted as `trimesh_load`). -/
def load_obj {μ : Type} (trimesh_load : String → μ) (listing : List String) :
    Option μ :=
  let candidate_list := obj_candidates listing
  if candidate_list.length = 1 then some (trimesh_load (candidate_list.headD ""))
  else none

example : obj_candidates ["box.obj", "notes.txt", "box.mtl"] = ["box.obj"] := by
  decide

example : splitext_ext ".obj".data = [] := by decide

/-- C9: `load_obj` fails if and only if the model directory listing does not
contain exactly one file with extension `.obj` or `.ply`: zero or several
candidates yield a hard failure, and with exactly one candidate the mesh
load proceeds. -/
theorem load_obj_fails_iff_candidates_not_unique {μ : Type}
    (trimesh_load : String → μ) (listing : List String) :
    (load_obj trimesh_load listing = none ↔
      (obj_candidates listing).length ≠ 1) ∧
    ((load_obj trimesh_load listing).isSome ↔
      (obj_candidates listing).length = 1) := by
  unfold load_obj
  by_cases h : (obj_candidates listing).length = 1 <;> simp [h]

/-- Advancing one parent hop commutes with `iterParent`. -/
theorem iterParent_shift (rev : List (String × String)) (k p : String)
    (hp : alookup rev k = some p) :
    ∀ n, iterParent rev k (n + 1) = iterParent rev p n := by
  intro n
  induction n with
  | zero => simp [iterParent, hp]
  | succ m ih =>
    show (match alookup rev (iterParent rev k (m + 1)) with
      | some q => q
      | none => iterParent rev k (m + 1)) = iterParent rev p (m + 1)
    rw [ih]
    rfl

/-- C8: for every reverse parent map and starting id whose parent chain has
depth `d` (each of the first `d` iterates has a parent, the `d`-th does
not — the acyclicity precondition realised as a finite chain),
`get_part_tree_root` returns, for any sufficient fuel, exactly the id
reached after `d` parent-link hops, and that id has no parent entry; in
particular an id with no parent entry (`d = 0`) is returned unchanged. -/
theorem get_part_tree_root_reaches_depth_d
    (rev : List (String × String)) (k : String) (d : Nat)
    (hroot : alookup rev (iterParent rev k d) = none)
    (hstep : ∀ i, i < d → (alookup rev (iterParent rev k i)).isSome) :
    ∀ fuel, d ≤ fuel →
      get_part_tree_root rev fuel k = iterParent rev k d ∧
      alookup rev (get_part_tree_root rev fuel k) = none := by
  induction d generalizing k with
  | zero =>
    intro fuel _
    have hk : alookup rev k = none := hroot
    cases fuel with
    | zero => exact ⟨rfl, hk⟩
    | succ f =>
      constructor
      · show (match alookup rev k with
          | some parent => get_part_tree_root rev f parent
          | none => k) = iterParent rev k 0
        rw [hk]
        rfl
      · show alookup rev (match alookup rev k with
          | some parent => get_part_tree_root rev f parent
          | none => k) = none
        rw [hk]
        exact hk
  | succ d ih =>
    intro fuel hf
    obtain ⟨p, hp0⟩ := Option.isSome_iff_exists.1 (hstep 0 (Nat.succ_pos d))
    have hp : alookup rev k = some p := hp0
    cases fuel with
    | zero => exact absurd hf (by omega)
    | succ f =>
      have hstep2 : ∀ i, i < d → (alookup rev (iterParent rev p i)).isSome := by
        intro i hi
        rw [← iterParent_shift rev k p hp i]
        exact hstep (i + 1) (by omega)
      have hroot2 : alookup rev (iterParent rev p d) = none := by
        rw [← iterParent_shift rev k p hp d]
        exact hroot
      have hmain := ih p hroot2 hstep2 f (by omega)
      constructor
      · show (match alookup rev k with
          | some parent => get_part_tree_root rev f parent
          | none => k) = iterParent rev k (d + 1)
        rw [hp, iterParent_shift rev k p hp d]
        exact hmain.1
      · show alookup rev (match alookup rev k with
          | some parent => get_part_tree_root rev f parent
          | none => k) = none
        rw [hp]
        exact hmain.2

/-- Witness for C8 on the concrete two-hop chain leaf → mid → root. -/
theorem get_part_tree_root_reaches_depth_d_witness :
    get_part_tree_root [("leaf", "mid"), ("mid", "root")] 5 "leaf" =
      iterParent [("leaf", "mid"), ("mid", "root")] "leaf" 2 ∧
    alookup [("leaf", "mid"), ("mid", "root")]
      (get_part_tree_root [("leaf", "mid"), ("mid", "root")] 5 "leaf") = none :=
  get_part_tree_root_reaches_depth_d [("leaf", "mid"), ("mid", "root")]
    "leaf" 2 (by decide)
    (fun i hi => by interval_cases i <;> decide)
    5 (by omega)

theorem instantiate_complex_task_flag (anno : AnnoData) (c : ComplexTask)
    (h : c.instantiated = true) : instantiate_complex_task anno c = c := by
  unfold instantiate_complex_task
  rw [if_pos h]

theorem instantiate_complex_task_sets_flag (anno : AnnoData) (c : ComplexTask) :
    (instantiate_complex_task anno c).instantiated = true := by
  unfold instantiate_complex_task
  split
  · assumption
  · rfl

theorem instantiate_primitive_task_sets_flag (is_transient : String → Bool)
    (env : SeqEnv) (p : PrimitiveTask) (c : Option ComplexTask) :
    (instantiate_primitive_task is_transient env p c).1.instantiated = true := by
  unfold instantiate_primitive_task
  split
  · assumption
  · rfl

theorem instantiate_affordance_sets_flag {μ : Type} (load : String → μ)
    (cache : List (String × μ)) (a : Affordance μ) :
    (instantiate_affordance load cache a).2.instantiated = true := by
  unfold instantiate_affordance
  split
  · assumption
  · split
    · rfl
    · rfl

/-- C3: every hydration operation (`instantiate_complex_task`,
`instantiate_primitive_task`, `instantiate_affordance`) is idempotent: after
a first call succeeds, a second call — with any inputs for the external
collaborators — returns the record with every field unchanged. -/
theorem hydrate_operations_idempotent :
    (∀ (anno anno2 : AnnoData) (c : ComplexTask),
      instantiate_complex_task anno2 (instantiate_complex_task anno c) =
        instantiate_complex_task anno c) ∧
    (∀ (tr tr2 : String → Bool) (env env2 : SeqEnv) (p : PrimitiveTask)
        (c c2 : Option ComplexTask),
      (instantiate_primitive_task tr2 env2
          (instantiate_primitive_task tr env p c).1 c2).1 =
        (instantiate_primitive_task tr env p c).1) ∧
    (∀ (μ : Type) (load load2 : String → μ)
        (cache cache2 : List (String × μ)) (a : Affordance μ),
      (instantiate_affordance load2 cache2
          (instantiate_affordance load cache a).2).2 =
        (instantiate_affordance load cache a).2) := by
  refine ⟨fun anno anno2 c => ?_, fun tr tr2 env env2 p c c2 => ?_,
    fun μ load load2 cache cache2 a => ?_⟩
  · exact instantiate_complex_task_flag anno2 _
      (instantiate_complex_task_sets_flag anno c)
  · conv_lhs =>
      rw [instantiate_primitive_task,
        if_pos (instantiate_primitive_task_sets_flag tr env p c)]
  · conv_lhs =>
      rw [instantiate_affordance,
        if_pos (instantiate_affordance_sets_flag load cache a)]

theorem intRange_length (lo hi : Int) :
    (intRange lo hi).length = (hi - lo).toNat := by
  rw [intRange, List.length_map, List.length_range]

/-- A trivial annotation blob used by concrete witnesses. -/
def annoTriv : AnnoData where
  mocap_frame_id_list := [0]
  obj_list := []
  smplx := fun _ => 0
  lh := fun _ => 0
  rh := fun _ => 0
  obj_transf := fun _ _ => 0

/-- A trivial per-sequence environment used by concrete witnesses. -/
def envTriv : SeqEnv where
  program_info := []
  g_info := ⟨[], []⟩
  anno := annoTriv

/-- A concrete un-hydrated primitive task with whole-body range `[0, 10)`,
no left-hand sub-range and right-hand sub-range `[2, 8)`, used by concrete
witnesses. -/
def primTriv : PrimitiveTask where
  seq_key := "scene/seq"
  frame_range := ((0 : Int), (10 : Int))
  frame_range_rh := some ((2 : Int), (8 : Int))

/-- C5: a hand whose recorded sub-range is absent hydrates to an all-zero
tensor of whole-body length `(b - a).toNat` and an all-false mask of the
same length, for any whole-body range (in particular any length ≥ 0) and
either hand. -/
theorem hydrate_primitive_task_absent_subrange
    (tr : String → Bool) (env : SeqEnv) (p : PrimitiveTask)
    (c : Option ComplexTask) (a b : Int)
    (hp : p.instantiated = false) (hfr : p.frame_range = (a, b)) :
    (p.frame_range_lh = none →
      (instantiate_primitive_task tr env p c).1.lh_param =
        some (List.replicate (b - a).toNat 0) ∧
      (instantiate_primitive_task tr env p c).1.lh_in_range_mask =
        some (List.replicate (b - a).toNat false)) ∧
    (p.frame_range_rh = none →
      (instantiate_primitive_task tr env p c).1.rh_param =
        some (List.replicate (b - a).toNat 0) ∧
      (instantiate_primitive_task tr env p c).1.rh_in_range_mask =
        some (List.replicate (b - a).toNat false)) := by
  constructor
  · intro hlh
    unfold instantiate_primitive_task
    rw [if_neg (by simp [hp])]
    simp [hlh, hfr, zero_param, intRange_length]
  · intro hrh
    unfold instantiate_primitive_task
    rw [if_neg (by simp [hp])]
    simp [hrh, hfr, zero_param, intRange_length]

/-- Witness for C5 with whole-body range `[0, 10)` and an absent left-hand
sub-range. -/
theorem hydrate_primitive_task_absent_subrange_witness :
    primTriv.frame_range_lh = none ∧
    (instantiate_primitive_task (fun _ => false) envTriv primTriv
        none).1.lh_param = some (List.replicate (10 - 0 : Int).toNat 0) ∧
    (instantiate_primitive_task (fun _ => false) envTriv primTriv
        none).1.lh_in_range_mask =
      some (List.replicate (10 - 0 : Int).toNat false) :=
  ⟨rfl,
    (hydrate_primitive_task_absent_subrange (fun _ => false) envTriv primTriv
      none 0 10 rfl rfl).1 rfl⟩

/-- C4: a hand sub-range `[s, e)` lying fully inside the whole-body range
`[a, b)` hydrates to a tensor of total length `(b - a).toNat` and a mask
that is false for the `(s - a).toNat` head-gap frames, true for exactly the
`(e - s).toNat` sliced frames at that offset, and false for the tail gap;
in particular the mask has whole-body length and exactly `(e - s).toNat`
true entries.  Stated for both hands. -/
theorem hydrate_primitive_task_inner_subrange
    (tr : String → Bool) (env : SeqEnv) (p : PrimitiveTask)
    (c : Option ComplexTask) (a b : Int)
    (hp : p.instantiated = false) (hfr : p.frame_range = (a, b)) :
    (∀ s e : Int, p.frame_range_lh = some (s, e) →
      a ≤ s → s ≤ e → e ≤ b →
      (instantiate_primitive_task tr env p c).1.lh_in_range_mask =
        some (List.replicate (s - a).toNat false ++
          List.replicate (e - s).toNat true ++
          List.replicate (b - e).toNat false) ∧
      ((instantiate_primitive_task tr env p c).1.lh_param.getD []).length =
        (b - a).toNat ∧
      ((instantiate_primitive_task tr env p c).1.lh_in_range_mask.getD
          []).length = (b - a).toNat ∧
      ((instantiate_primitive_task tr env p c).1.lh_in_range_mask.getD
          []).count true = (e - s).toNat) ∧
    (∀ s e : Int, p.frame_range_rh = some (s, e) →
      a ≤ s → s ≤ e → e ≤ b →
      (instantiate_primitive_task tr env p c).1.rh_in_range_mask =
        some (List.replicate (s - a).toNat false ++
          List.replicate (e - s).toNat true ++
          List.replicate (b - e).toNat false) ∧
      ((instantiate_primitive_task tr env p c).1.rh_param.getD []).length =
        (b - a).toNat ∧
      ((instantiate_primitive_task tr env p c).1.rh_in_range_mask.getD
          []).length = (b - a).toNat ∧
      ((instantiate_primitive_task tr env p c).1.rh_in_range_mask.getD
          []).count true = (e - s).toNat) := by
  have hmax1 : ∀ s : Int, a ≤ s → max 0 (s - a) = s - a := fun s hs =>
    max_eq_right (by omega)
  have hmax2 : ∀ e : Int, e ≤ b → max 0 (b - e) = b - e := fun e he =>
    max_eq_right (by omega)
  constructor
  · intro s e hlh ha hse he
    unfold instantiate_primitive_task
    rw [if_neg (by simp [hp])]
    simp only [hlh, hfr, index_param, hmax1 s ha, hmax2 e he]
    refine ⟨by simp [intRange_length], ?_, ?_, ?_⟩
    · simp only [Option.getD_some, List.length_append, List.length_replicate,
        List.length_map, intRange_length]
      omega
    · simp only [Option.getD_some, List.length_append, List.length_replicate,
        List.length_map, intRange_length]
      omega
    · simp only [Option.getD_some, List.count_append, List.count_replicate,
        intRange_length]
      simp
  · intro s e hrh ha hse he
    unfold instantiate_primitive_task
    rw [if_neg (by simp [hp])]
    simp only [hrh, hfr, index_param, hmax1 s ha, hmax2 e he]
    refine ⟨by simp [intRange_length], ?_, ?_, ?_⟩
    · simp only [Option.getD_some, List.length_append, List.length_replicate,
        List.length_map, intRange_length]
      omega
    · simp only [Option.getD_some, List.length_append, List.length_replicate,
        List.length_map, intRange_length]
      omega
    · simp only [Option.getD_some, List.count_append, List.count_replicate,
        intRange_length]
      simp

/-- Witness for C4: right-hand sub-range `[2, 8)` inside whole-body range
`[0, 10)` (the spec §8 end-to-end example). -/
theorem hydrate_primitive_task_inner_subrange_witness :
    (instantiate_primitive_task (fun _ => false) envTriv primTriv
        none).1.rh_in_range_mask =
      some (List.replicate ((2 : Int) - 0).toNat false ++
        List.replicate ((8 : Int) - 2).toNat true ++
        List.replicate ((10 : Int) - 8).toNat false) ∧
    ((instantiate_primitive_task (fun _ => false) envTriv primTriv
        none).1.rh_param.getD []).length = ((10 : Int) - 0).toNat ∧
    ((instantiate_primitive_task (fun _ => false) envTriv primTriv
        none).1.rh_in_range_mask.getD []).length = ((10 : Int) - 0).toNat ∧
    ((instantiate_primitive_task (fun _ => false) envTriv primTriv
        none).1.rh_in_range_mask.getD []).count true = ((8 : Int) - 2).toNat :=
  (hydrate_primitive_task_inner_subrange (fun _ => false) envTriv primTriv
      none 0 10 rfl rfl).2 2 8 rfl (by decide) (by decide) (by decide)

section AUpdateLemmas

variable {κ β : Type} [DecidableEq κ]

theorem alookup_append (l1 l2 : List (κ × β)) (k : κ) :
    alookup (l1 ++ l2) k =
      match alookup l1 k with
      | some v => some v
      | none => alookup l2 k := by
  induction l1 with
  | nil => rfl
  | cons kv rest ih =>
    by_cases hk : kv.1 = k
    · simp [alookup, hk]
    · simp only [List.cons_append, alookup, if_neg hk]
      exact ih

theorem alookup_map_replace_ne {l : List (κ × β)} {k k' : κ} {v : β}
    (h : k' ≠ k) :
    alookup (l.map (fun kv => if kv.1 = k then (k, v) else kv)) k' =
      alookup l k' := by
  induction l with
  | nil => rfl
  | cons kv rest ih =>
    by_cases hk : kv.1 = k
    · have h1 : k ≠ k' := fun he => h he.symm
      have h2 : kv.1 ≠ k' := fun he => h (he.symm.trans hk)
      simp only [List.map_cons, if_pos hk, alookup, if_neg h1, if_neg h2]
      exact ih
    · by_cases hk2 : kv.1 = k'
      · simp only [List.map_cons, if_neg hk, alookup, if_pos hk2]
      · simp only [List.map_cons, if_neg hk, alookup, if_neg hk2]
        exact ih

theorem alookup_map_replace_self {l : List (κ × β)} {k : κ} {v : β}
    (h : (alookup l k).isSome) :
    alookup (l.map (fun kv => if kv.1 = k then (k, v) else kv)) k = some v := by
  induction l with
  | nil => simp [alookup] at h
  | cons kv rest ih =>
    by_cases hk : kv.1 = k
    · simp [List.map_cons, if_pos hk, alookup]
    · rw [alookup, if_neg hk] at h
      simp only [List.map_cons, if_neg hk, alookup, if_neg hk]
      exact ih h

theorem alookup_aupdate (l : List (κ × β)) (k k' : κ) (v : β) :
    alookup (aupdate l k v) k' = if k' = k then some v else alookup l k' := by
  unfold aupdate
  by_cases hs : (alookup l k).isSome
  · rw [if_pos hs]
    by_cases hk : k' = k
    · subst hk
      rw [if_pos rfl]
      exact alookup_map_replace_self hs
    · rw [if_neg hk]
      exact alookup_map_replace_ne hk
  · rw [if_neg hs]
    rw [alookup_append]
    by_cases hk : k' = k
    · subst hk
      have : alookup l k' = none := by
        cases h : alookup l k'
        · rfl
        · rw [h] at hs; simp at hs
      rw [this, if_pos rfl]
      simp [alookup]
    · rw [if_neg hk]
      cases h : alookup l k'
      · simp only [alookup]
        rw [if_neg (fun he => hk he.symm)]
      · rfl

end AUpdateLemmas

/-- Lookup in the object-transform dictionary built by the restriction loop
of `instantiate_primitive_task` (dataset.py lines 222-226) succeeds exactly
for objects of the processed list that the parent map covers. -/
theorem obj_transf_fold_isSome (parent : List (String × (Int → Int)))
    (frames : List Int) :
    ∀ (l : List String) (acc : List (String × List Int)) (o : String),
      (alookup (l.foldl (fun acc obj_id =>
          match alookup parent obj_id with
          | none => acc
          | some f => aupdate acc obj_id (frames.map f)) acc) o).isSome ↔
        ((alookup acc o).isSome ∨ (o ∈ l ∧ (alookup parent o).isSome)) := by
  intro l
  induction l with
  | nil => intro acc o; simp
  | cons h t ih =>
    intro acc o
    rw [List.foldl_cons]
    cases hph : alookup parent h with
    | none =>
      simp only [hph]
      rw [ih acc o]
      constructor
      · rintro (hacc | hmem)
        · exact Or.inl hacc
        · exact Or.inr ⟨List.mem_cons_of_mem _ hmem.1, hmem.2⟩
      · rintro (hacc | ⟨hmem, hps⟩)
        · exact Or.inl hacc
        · rcases List.mem_cons.1 hmem with he | he
          · subst he; rw [hph] at hps; simp at hps
          · exact Or.inr ⟨he, hps⟩
    | some f =>
      simp only [hph]
      rw [ih _ o, alookup_aupdate]
      by_cases ho : o = h
      · subst ho
        simp [hph]
      · rw [if_neg ho]
        constructor
        · rintro (hacc | hmem)
          · exact Or.inl hacc
          · exact Or.inr ⟨List.mem_cons_of_mem _ hmem.1, hmem.2⟩
        · rintro (hacc | ⟨hmem, hps⟩)
          · exact Or.inl hacc
          · rcases List.mem_cons.1 hmem with he | he
            · exact absurd he ho
            · exact Or.inr ⟨he, hps⟩

theorem resolve_complex_of_instantiated (fresh cd : ComplexTask)
    (h : cd.instantiated = true) : resolve_complex fresh (some cd) = cd := by
  simp [resolve_complex, h]

/-- C7: after `instantiate_primitive_task` hydrates a primitive task against
a hydrated parent, the hydrated `obj_transf` keys are exactly the original
`task_obj_list` members covered by the parent's hydrated transform map, and
the pruned `task_obj_list` / `lh_obj_list` / `rh_obj_list` keep exactly
their original members that have an entry in the task's `obj_transf`. -/
theorem hydrate_primitive_task_obj_restriction
    (tr : String → Bool) (env : SeqEnv) (p : PrimitiveTask) (c₀ : ComplexTask)
    (hp : p.instantiated = false) (hc : c₀.instantiated = true) :
    (∀ o : String,
      (alookup ((instantiate_primitive_task tr env p
          (some c₀)).1.obj_transf.getD []) o).isSome ↔
        (o ∈ p.task_obj_list ∧ (alookup (c₀.obj_transf.getD []) o).isSome)) ∧
    (∀ o : String,
      o ∈ (instantiate_primitive_task tr env p (some c₀)).1.task_obj_list ↔
        (o ∈ p.task_obj_list ∧
          (alookup ((instantiate_primitive_task tr env p
            (some c₀)).1.obj_transf.getD []) o).isSome)) ∧
    (∀ l : List String, p.lh_obj_list = some l → ∀ o : String,
      o ∈ ((instantiate_primitive_task tr env p
          (some c₀)).1.lh_obj_list.getD []) ↔
        (o ∈ l ∧ (alookup ((instantiate_primitive_task tr env p
          (some c₀)).1.obj_transf.getD []) o).isSome)) ∧
    (∀ l : List String, p.rh_obj_list = some l → ∀ o : String,
      o ∈ ((instantiate_primitive_task tr env p
          (some c₀)).1.rh_obj_list.getD []) ↔
        (o ∈ l ∧ (alookup ((instantiate_primitive_task tr env p
          (some c₀)).1.obj_transf.getD []) o).isSome)) := by
  unfold instantiate_primitive_task
  rw [if_neg (by simp [hp]),
    resolve_complex_of_instantiated (load_complex_task tr env p.seq_key true)
      c₀ hc]
  refine ⟨fun o => ?_, fun o => ?_, fun l hl o => ?_, fun l hl o => ?_⟩
  · simp only [Option.getD_some]
    rw [obj_transf_fold_isSome]
    simp [alookup]
  · simp only [Option.getD_some, List.mem_filter]
  · simp [hl, List.mem_filter]
  · simp [hl, List.mem_filter]

/-- A concrete hydrated parent complex task used by the C7 witness: objects
`o1`, `o2` have transform streams, `o3` does not. -/
def complexTriv : ComplexTask where
  seq_key := "scene/seq"
  instantiated := true
  smplx_param := some (fun _ => 0)
  lh_param := some (fun _ => 0)
  rh_param := some (fun _ => 0)
  obj_transf := some [("o1", fun _ => 1), ("o2", fun _ => 2)]

/-- A concrete un-hydrated primitive task for the C7 witness: its object
list mentions `o1` and `o3`, of which only `o1` is covered by the parent. -/
def primObjTriv : PrimitiveTask where
  seq_key := "scene/seq"
  frame_range := ((0 : Int), (3 : Int))
  task_obj_list := ["o1", "o3"]
  lh_obj_list := some ["o3", "o1"]

/-- Witness for C7 on `primObjTriv` against the hydrated `complexTriv`. -/
theorem hydrate_primitive_task_obj_restriction_witness :
    ((alookup ((instantiate_primitive_task (fun _ => false) envTriv primObjTriv
        (some complexTriv)).1.obj_transf.getD []) "o1").isSome ↔
      ("o1" ∈ primObjTriv.task_obj_list ∧
        (alookup (complexTriv.obj_transf.getD []) "o1").isSome)) ∧
    ("o3" ∈ (instantiate_primitive_task (fun _ => false) envTriv primObjTriv
        (some complexTriv)).1.task_obj_list ↔
      ("o3" ∈ primObjTriv.task_obj_list ∧
        (alookup ((instantiate_primitive_task (fun _ => false) envTriv
          primObjTriv (some complexTriv)).1.obj_transf.getD [])
          "o3").isSome)) :=
  ⟨(hydrate_primitive_task_obj_restriction (fun _ => false) envTriv
      primObjTriv complexTriv rfl rfl).1 "o1",
    (hydrate_primitive_task_obj_restriction (fun _ => false) envTriv
      primObjTriv complexTriv rfl rfl).2.1 "o3"⟩

theorem load_complex_task_instantiated (tr : String → Bool) (env : SeqEnv)
    (seq_key : String) :
    (load_complex_task tr env seq_key true).instantiated = true := by
  unfold load_complex_task
  simp only [if_true]
  exact instantiate_complex_task_sets_flag env.anno _

/-- C10: when `instantiate_primitive_task` is called on an un-hydrated
primitive with a complex-task argument that is `none` or not yet hydrated,
the complex task it works from is the freshly loaded, hydrated one
(`load_complex_task …, return_instantiated=True`), and the caller-supplied
record is returned to the caller completely unchanged — every field,
including its `instantiated` flag. -/
theorem instantiate_primitive_task_frame_effect
    (tr : String → Bool) (env : SeqEnv) (p : PrimitiveTask)
    (c : Option ComplexTask)
    (hp : p.instantiated = false)
    (hc : c = none ∨ ∃ cd, c = some cd ∧ cd.instantiated = false) :
    resolve_complex (load_complex_task tr env p.seq_key true) c =
      load_complex_task tr env p.seq_key true ∧
    (load_complex_task tr env p.seq_key true).instantiated = true ∧
    (instantiate_primitive_task tr env p c).2 = c ∧
    (instantiate_primitive_task tr env p c).1.instantiated = true := by
  refine ⟨?_, load_complex_task_instantiated tr env p.seq_key, ?_,
    instantiate_primitive_task_sets_flag tr env p c⟩
  · rcases hc with h | ⟨cd, h, hcd⟩
    · subst h; rfl
    · subst h; simp [resolve_complex, hcd]
  · unfold instantiate_primitive_task
    rw [if_neg (by simp [hp])]

/-- A concrete un-hydrated complex task handed to the C10 witness call. -/
def complexUnhydrated : ComplexTask where
  seq_key := "scene/seq"

/-- Witness for C10 on `primTriv` with an un-hydrated caller complex task. -/
theorem instantiate_primitive_task_frame_effect_witness :
    resolve_complex
        (load_complex_task (fun _ => false) envTriv primTriv.seq_key true)
        (some complexUnhydrated) =
      load_complex_task (fun _ => false) envTriv primTriv.seq_key true ∧
    (load_complex_task (fun _ => false) envTriv
        primTriv.seq_key true).instantiated = true ∧
    (instantiate_primitive_task (fun _ => false) envTriv primTriv
        (some complexUnhydrated)).2 = some complexUnhydrated ∧
    (instantiate_primitive_task (fun _ => false) envTriv primTriv
        (some complexUnhydrated)).1.instantiated = true :=
  instantiate_primitive_task_frame_effect (fun _ => false) envTriv primTriv
    (some complexUnhydrated) rfl (Or.inr ⟨complexUnhydrated, rfl, rfl⟩)

/-! ## C2: the node set of the constructed PDG -/

theorem contract_one_id_map (g : GInfo) (n : String) :
    (contract_one g n).id_map = g.id_map.filter (fun kv => kv.1 ≠ n) := by
  cases hl : alookup g.id_map n with
  | some nid => simp only [contract_one, hl]
  | none =>
    rw [contract_one_of_none hl]
    have hn : n ∉ akeys g.id_map := (alookup_eq_none_iff _ _).1 hl
    rw [List.filter_eq_self.2]
    intro kv hkv
    simp only [decide_eq_true_eq]
    intro he
    exact hn (he ▸ List.mem_map_of_mem Prod.fst hkv)

theorem foldl_contract_id_map (ns : List String) :
    ∀ g : GInfo,
      (ns.foldl contract_one g).id_map =
        g.id_map.filter (fun kv => kv.1 ∉ ns) := by
  induction ns with
  | nil =>
    intro g
    rw [List.foldl_nil, List.filter_eq_self.2]
    intro kv _
    simp
  | cons n t ih =>
    intro g
    rw [List.foldl_cons, ih, contract_one_id_map, List.filter_filter]
    apply List.filter_congr
    intro kv _
    by_cases h1 : kv.1 = n
    · simp [h1]
    · by_cases h2 : kv.1 ∈ t <;> simp [h1, h2]

theorem fix_g_info_id_map (g : GInfo) (aff : List (String × String)) :
    (fix_g_info g aff).id_map =
      g.id_map.filter (fun kv => (alookup aff kv.1).isSome) := by
  unfold fix_g_info
  by_cases h0 : ((akeys g.id_map).filter
      (fun k => (alookup aff k).isNone)).length = 0
  · rw [if_pos h0]
    rw [List.length_eq_zero] at h0
    rw [List.filter_eq_self.2]
    intro kv hkv
    cases hl : alookup aff kv.1 with
    | some w => rfl
    | none =>
      exfalso
      have hm : kv.1 ∈ (akeys g.id_map).filter
          (fun k => (alookup aff k).isNone) :=
        List.mem_filter.2 ⟨List.mem_map_of_mem Prod.fst hkv, by rw [hl]; rfl⟩
      rw [h0] at hm
      simp at hm
  · rw [if_neg h0, foldl_contract_id_map]
    apply List.filter_congr
    intro kv hkv
    have hk : kv.1 ∈ akeys g.id_map := List.mem_map_of_mem Prod.fst hkv
    cases hll : alookup aff kv.1 with
    | some w =>
      have hnm : kv.1 ∉ (akeys g.id_map).filter
          (fun k => (alookup aff k).isNone) := by
        intro hm
        have hmm := (List.mem_filter.1 hm).2
        rw [hll] at hmm
        simp at hmm
      simp [hnm, hll]
    | none =>
      have hmem : kv.1 ∈ (akeys g.id_map).filter
          (fun k => (alookup aff k).isNone) :=
        List.mem_filter.2 ⟨hk, by rw [hll]; rfl⟩
      simp [hmem, hll]

/-- All edge endpoints are ids of the current id-map. -/
def edgesCovered (g : GInfo) : Prop :=
  ∀ e ∈ g.e, e.1 ∈ avalues g.id_map ∧ e.2 ∈ avalues g.id_map

theorem value_mem_filter_of_ne {g : GInfo} {n : String} {nid v : Int}
    (hk : (akeys g.id_map).Nodup)
    (hnid : alookup g.id_map n = some nid)
    (hv : v ∈ avalues g.id_map) (hne : v ≠ nid) :
    v ∈ avalues (g.id_map.filter (fun kv => kv.1 ≠ n)) := by
  rcases List.mem_map.1 hv with ⟨kv, hkv, hkv2⟩
  have hkne : kv.1 ≠ n := by
    intro he
    have hlk : alookup g.id_map kv.1 = some kv.2 :=
      alookup_of_mem_of_nodupkeys hk hkv
    rw [he, hnid] at hlk
    obtain ⟨h4⟩ := hlk
    exact hne hkv2.symm
  exact List.mem_map.2 ⟨kv, List.mem_filter.2 ⟨hkv, by simp [hkne]⟩, hkv2⟩

theorem contract_one_edgesCovered {g : GInfo} {n : String}
    (hk : (akeys g.id_map).Nodup) (h : edgesCovered g) :
    edgesCovered (contract_one g n) := by
  cases hl : alookup g.id_map n with
  | none => rw [contract_one_of_none hl]; exact h
  | some nid =>
    intro e he
    simp only [contract_one, hl] at he ⊢
    have hmem := (List.mem_filter.1 he).1
    have hcond := (List.mem_filter.1 he).2
    simp only [decide_eq_true_eq] at hcond
    have hends : e.1 ∈ avalues g.id_map ∧ e.2 ∈ avalues g.id_map := by
      rcases List.mem_append.1 hmem with hm | hm
      · exact h e hm
      · rcases List.mem_flatMap.1 hm with ⟨e1, he1, hmap⟩
        rcases List.mem_map.1 hmap with ⟨e2, he2, rfl⟩
        exact ⟨(h e1 (List.mem_filter.1 he1).1).1,
          (h e2 (List.mem_filter.1 he2).1).2⟩
    exact ⟨value_mem_filter_of_ne hk hl hends.1 hcond.1,
      value_mem_filter_of_ne hk hl hends.2 hcond.2⟩

theorem contract_one_keys_nodup {g : GInfo} {n : String}
    (hk : (akeys g.id_map).Nodup) :
    (akeys (contract_one g n).id_map).Nodup := by
  rw [contract_one_id_map]
  exact List.Nodup.sublist (List.Sublist.map Prod.fst (List.filter_sublist _)) hk

theorem foldl_contract_edgesCovered (ns : List String) :
    ∀ g : GInfo, (akeys g.id_map).Nodup → edgesCovered g →
      edgesCovered (ns.foldl contract_one g) := by
  induction ns with
  | nil => intro g _ h; exact h
  | cons n t ih =>
    intro g hk h
    rw [List.foldl_cons]
    exact ih _ (contract_one_keys_nodup hk) (contract_one_edgesCovered hk h)

theorem fix_g_info_edgesCovered (g : GInfo) (aff : List (String × String))
    (hk : (akeys g.id_map).Nodup) (h : edgesCovered g) :
    edgesCovered (fix_g_info g aff) := by
  unfold fix_g_info
  by_cases h0 : ((akeys g.id_map).filter
      (fun k => (alookup aff k).isNone)).length = 0
  · rw [if_pos h0]; exact h
  · rw [if_neg h0]; exact foldl_contract_edgesCovered _ g hk h

theorem mem_addNode_nodes (g : DiGraph) (w v : String) :
    v ∈ (addNode g w).nodes ↔ v ∈ g.nodes ∨ v = w := by
  unfold addNode
  by_cases h : w ∈ g.nodes
  · rw [if_pos h]
    constructor
    · exact Or.inl
    · rintro (hv | hv)
      · exact hv
      · exact hv ▸ h
  · rw [if_neg h]
    simp

theorem mem_addEdge_nodes (g : DiGraph) (u w v : String) :
    v ∈ (addEdge g u w).nodes ↔ v ∈ g.nodes ∨ v = u ∨ v = w := by
  unfold addEdge
  simp only [mem_addNode_nodes]
  constructor
  · rintro ((hv | hv) | hv)
    · exact Or.inl hv
    · exact Or.inr (Or.inl hv)
    · exact Or.inr (Or.inr hv)
  · rintro (hv | hv | hv)
    · exact Or.inl (Or.inl hv)
    · exact Or.inl (Or.inr hv)
    · exact Or.inr hv

theorem mem_foldl_addNode (aff : List (String × String)) (l : List String) :
    ∀ (g : DiGraph) (v : String),
      v ∈ (l.foldl (fun acc k => addNode acc (pdg_node_of aff k)) g).nodes ↔
        v ∈ g.nodes ∨ ∃ k ∈ l, pdg_node_of aff k = v := by
  induction l with
  | nil => intro g v; simp
  | cons k t ih =>
    intro g v
    rw [List.foldl_cons, ih, mem_addNode_nodes]
    constructor
    · rintro ((hv | hv) | ⟨k2, hk2, hv⟩)
      · exact Or.inl hv
      · exact Or.inr ⟨k, List.mem_cons_self k t, hv.symm⟩
      · exact Or.inr ⟨k2, List.mem_cons_of_mem _ hk2, hv⟩
    · rintro (hv | ⟨k2, hk2, hv⟩)
      · exact Or.inl (Or.inl hv)
      · rcases List.mem_cons.1 hk2 with he | he
        · exact Or.inl (Or.inr (he ▸ hv).symm)
        · exact Or.inr ⟨k2, he, hv⟩

theorem mem_foldl_addEdge (aff : List (String × String))
    (rev : List (Int × String)) (l : List (Int × Int)) :
    ∀ (g : DiGraph) (v : String),
      v ∈ (l.foldl (fun acc e =>
          addEdge acc (pdg_node_of aff (pdg_seg_of rev e.1))
            (pdg_node_of aff (pdg_seg_of rev e.2))) g).nodes ↔
        v ∈ g.nodes ∨ ∃ e ∈ l,
          pdg_node_of aff (pdg_seg_of rev e.1) = v ∨
          pdg_node_of aff (pdg_seg_of rev e.2) = v := by
  induction l with
  | nil => intro g v; simp
  | cons e t ih =>
    intro g v
    rw [List.foldl_cons, ih, mem_addEdge_nodes]
    constructor
    · rintro ((hv | hv | hv) | ⟨e2, he2, hv⟩)
      · exact Or.inl hv
      · exact Or.inr ⟨e, List.mem_cons_self e t, Or.inl hv.symm⟩
      · exact Or.inr ⟨e, List.mem_cons_self e t, Or.inr hv.symm⟩
      · exact Or.inr ⟨e2, List.mem_cons_of_mem _ he2, hv⟩
    · rintro (hv | ⟨e2, he2, hv⟩)
      · exact Or.inl (Or.inl hv)
      · rcases List.mem_cons.1 he2 with he | he
        · subst he
          rcases hv with hv | hv
          · exact Or.inl (Or.inr (Or.inl hv.symm))
          · exact Or.inl (Or.inr (Or.inr hv.symm))
        · exact Or.inr ⟨e2, he, hv⟩

theorem rev_id_map_of_covers (gfix : GInfo) {v : Int}
    (hv : v ∈ avalues gfix.id_map) :
    ∃ k, alookup (rev_id_map_of gfix) v = some k ∧ (k, v) ∈ gfix.id_map := by
  have hvk : v ∈ akeys (rev_id_map_of gfix) := by
    unfold rev_id_map_of akeys
    rw [List.map_reverse, List.mem_reverse, List.map_map]
    exact hv
  obtain ⟨k, hk⟩ := Option.isSome_iff_exists.1 ((alookup_isSome_iff _ _).2 hvk)
  refine ⟨k, hk, ?_⟩
  have hm := mem_of_alookup_eq_some hk
  unfold rev_id_map_of at hm
  rw [List.mem_reverse] at hm
  rcases List.mem_map.1 hm with ⟨kv, hkv, he⟩
  have h1 : kv.2 = v := congrArg Prod.fst he
  have h2 : kv.1 = k := congrArg Prod.snd he
  have h3 : (k, v) = kv := by rw [← h1, ← h2]
  exact h3 ▸ hkv

theorem instantiate_complex_task_pdg (anno : AnnoData) (c : ComplexTask) :
    (instantiate_complex_task anno c).pdg = c.pdg := by
  unfold instantiate_complex_task
  split <;> rfl

theorem load_complex_task_pdg (tr : String → Bool) (env : SeqEnv)
    (seq_key : String) (ri : Bool) :
    (load_complex_task tr env seq_key ri).pdg =
      build_pdg
        (fix_g_info env.g_info
          (suffix_affordance_primitive_segment tr env.program_info))
        (suffix_affordance_primitive_segment tr env.program_info) := by
  unfold load_complex_task
  cases ri
  · simp
  · simp [instantiate_complex_task_pdg]

theorem assignIdents_keys (seen : List String) (l : List (String × String)) :
    akeys (assignIdents seen l) = akeys l := by
  induction l generalizing seen with
  | nil => rfl
  | cons kn rest ih =>
    have h := ih (seen ++ [kn.2])
    unfold akeys at h
    simp only [assignIdents, akeys, List.map_cons]
    rw [h]

theorem suffix_affordance_keys_nodup (tr : String → Bool)
    (pi : List (String × ProgramItem)) (h : (akeys pi).Nodup) :
    (akeys (suffix_affordance_primitive_segment tr pi)).Nodup := by
  unfold suffix_affordance_primitive_segment
  rw [assignIdents_keys]
  have he : akeys ((pi.filter fun kv => ¬ tr kv.2.primitive).map
      (fun kv => (kv.1, kv.2.primitive))) =
      (pi.filter fun kv => ¬ tr kv.2.primitive).map Prod.fst := by
    unfold akeys
    rw [List.map_map]
    rfl
  rw [he]
  exact List.Nodup.sublist (List.Sublist.map _ (List.filter_sublist _)) h

/-- C2 (amended): for well-formed raw graphs — unique metadata and id-map
keys, every affordance key listed in the raw id-map, every raw edge over
mapped ids — the node set of the PDG built by `load_complex_task` equals
exactly the identifier set of the *affordance-typed* task name-map (the
code contracts against `affordance_task_namemap`, not the merged map). -/
theorem load_complex_task_pdg_nodes_eq_affordance_identifiers
    (tr : String → Bool) (env : SeqEnv) (seq_key : String) (ri : Bool)
    (hpnd : (akeys env.program_info).Nodup)
    (hgk : (akeys env.g_info.id_map).Nodup)
    (hsub : ∀ k ∈ akeys (suffix_affordance_primitive_segment tr
      env.program_info), k ∈ akeys env.g_info.id_map)
    (hcov : edgesCovered env.g_info) :
    ∀ v, v ∈ (load_complex_task tr env seq_key ri).pdg.nodes ↔
      v ∈ avalues (suffix_affordance_primitive_segment tr env.program_info) := by
  intro v
  rw [load_complex_task_pdg]
  set A := suffix_affordance_primitive_segment tr env.program_info with hAdef
  set gf := fix_g_info env.g_info A with hgfdef
  have hidm : gf.id_map =
      env.g_info.id_map.filter (fun kv => (alookup A kv.1).isSome) :=
    fix_g_info_id_map _ _
  have hcov2 : edgesCovered gf := fix_g_info_edgesCovered _ _ hgk hcov
  have hank : (akeys A).Nodup := suffix_affordance_keys_nodup tr _ hpnd
  have htrans : ∀ k ∈ akeys gf.id_map, pdg_node_of A k ∈ avalues A := by
    intro k hkm
    rw [hidm] at hkm
    rcases List.mem_map.1 hkm with ⟨kv, hkv, rfl⟩
    have hiss := (List.mem_filter.1 hkv).2
    obtain ⟨w, hw⟩ := Option.isSome_iff_exists.1 hiss
    rw [pdg_node_of, hw]
    exact List.mem_map.2 ⟨(kv.1, w), mem_of_alookup_eq_some hw, rfl⟩
  simp only [build_pdg]
  rw [mem_foldl_addEdge, mem_foldl_addNode]
  constructor
  · rintro ((hfalse | ⟨k, hk, hv⟩) | ⟨e, he, hv⟩)
    · simp at hfalse
    · exact hv ▸ htrans k hk
    · have hcase : ∀ i : Int, i ∈ avalues gf.id_map →
          pdg_node_of A (pdg_seg_of (rev_id_map_of gf) i) ∈ avalues A := by
        intro i hi
        obtain ⟨k, hk, hmem⟩ := rev_id_map_of_covers gf hi
        have hkk : k ∈ akeys gf.id_map := List.mem_map_of_mem Prod.fst hmem
        rw [pdg_seg_of, hk]
        exact htrans k hkk
      rcases hv with hv | hv
      · exact hv ▸ hcase e.1 (hcov2 e he).1
      · exact hv ▸ hcase e.2 (hcov2 e he).2
  · intro hval
    rcases List.mem_map.1 hval with ⟨kv, hkv, rfl⟩
    refine Or.inl (Or.inr ⟨kv.1, ?_, ?_⟩)
    · rw [hidm]
      have h1 : kv.1 ∈ akeys env.g_info.id_map :=
        hsub kv.1 (List.mem_map_of_mem Prod.fst hkv)
      rcases List.mem_map.1 h1 with ⟨kv0, hkv0, he0⟩
      have hla : alookup A kv.1 = some kv.2 :=
        alookup_of_mem_of_nodupkeys hank hkv
      exact List.mem_map.2 ⟨kv0,
        List.mem_filter.2 ⟨hkv0, by rw [he0, hla]; rfl⟩, he0⟩
    · rw [pdg_node_of, alookup_of_mem_of_nodupkeys hank hkv]
      rfl

/-- The raw inputs of the C2 counterexample: one affordance-typed task
`pour`, one transient-typed task `move`, and a raw edge between them. -/
def envC2 : SeqEnv where
  program_info :=
    [("('A',)", { primitive := "pour" }), ("('T',)", { primitive := "move" })]
  g_info := ⟨[("('A',)", 0), ("('T',)", 1)], [(0, 1)]⟩
  anno := annoTriv

/-- Counterexample to C2 as stated: the transient identifier `move` belongs
to the merged full task name-map but is not a node of the constructed PDG,
because `load_complex_task` contracts and translates through the
affordance-typed name-map only. -/
theorem load_complex_task_pdg_nodes_ne_merged :
    "move" ∈ avalues (full_task_namemap (fun s => s = "move")
      envC2.program_info) ∧
    "move" ∉ (load_complex_task (fun s => s = "move") envC2 "scene/seq"
      false).pdg.nodes := by
  constructor
  · decide
  · decide

/-- Witness for the amended C2 on the counterexample's environment: the
affordance identifier `pour` is a node, and membership matches the
affordance identifier set. -/
theorem load_complex_task_pdg_nodes_eq_affordance_identifiers_witness :
    "pour" ∈ (load_complex_task (fun s => s = "move") envC2 "scene/seq"
        false).pdg.nodes ↔
      "pour" ∈ avalues (suffix_affordance_primitive_segment
        (fun s => s = "move") envC2.program_info) :=
  load_complex_task_pdg_nodes_eq_affordance_identifiers
    (fun s => s = "move") envC2 "scene/seq" false
    (by decide) (by decide) (by decide)
    (by unfold edgesCovered; decide) "pour"

/-! ## C6: the merged task name-map is a bijection in metadata key order -/

theorem digitChar_toNat_sub_48 : ∀ d : Nat, d < 10 →
    (Nat.digitChar d).toNat - 48 = d := by
  intro d hd
  interval_cases d <;> decide

theorem digitChar_ne_hash : ∀ d : Nat, d < 10 → Nat.digitChar d ≠ '#' := by
  intro d hd
  interval_cases d <;> decide

theorem decimalValLE_natDigitsLE :
    ∀ fuel n : Nat, n ≤ fuel → decimalValLE (natDigitsLE fuel n) = n := by
  intro fuel
  induction fuel with
  | zero =>
    intro n hn
    interval_cases n
    rfl
  | succ f ih =>
    intro n hn
    match n with
    | 0 => rfl
    | m + 1 =>
      show decimalValLE (Nat.digitChar ((m + 1) % 10) ::
        natDigitsLE f ((m + 1) / 10)) = m + 1
      rw [decimalValLE]
      have hdiv : (m + 1) / 10 ≤ f := by
        have := Nat.div_lt_self (Nat.succ_pos m) (by norm_num : 1 < 10)
        omega
      rw [ih ((m + 1) / 10) hdiv,
        digitChar_toNat_sub_48 _ (Nat.mod_lt _ (by norm_num))]
      omega

theorem natDecimal_injective (m n : Nat) (h : natDecimal m = natDecimal n) :
    m = n := by
  unfold natDecimal at h
  have h2 : natDigitsLE m m = natDigitsLE n n := by
    have h3 := congrArg List.reverse h
    simpa using h3
  have hm := decimalValLE_natDigitsLE m m le_rfl
  have hn := decimalValLE_natDigitsLE n n le_rfl
  rw [← hm, ← hn, h2]

theorem hash_not_mem_natDigitsLE : ∀ fuel n : Nat, '#' ∉ natDigitsLE fuel n := by
  intro fuel
  induction fuel with
  | zero => intro n; simp [natDigitsLE]
  | succ f ih =>
    intro n
    match n with
    | 0 => simp [natDigitsLE]
    | m + 1 =>
      show '#' ∉ Nat.digitChar ((m + 1) % 10) :: natDigitsLE f ((m + 1) / 10)
      intro hmem
      rcases List.mem_cons.1 hmem with he | he
      · exact digitChar_ne_hash _ (Nat.mod_lt _ (by norm_num)) he.symm
      · exact ih _ he

theorem hash_not_mem_natDecimal (n : Nat) : '#' ∉ natDecimal n := by
  unfold natDecimal
  rw [List.mem_reverse]
  exact hash_not_mem_natDigitsLE n n

/-- Splitting a character list at the first `#`: two `#`-free prefixes with
empty-or-`#`-headed suffixes can only agree componentwise. -/
theorem hashfree_append_inj :
    ∀ (a b s t : List Char), '#' ∉ a → '#' ∉ b →
      (s = [] ∨ ∃ d, s = '#' :: d) → (t = [] ∨ ∃ d, t = '#' :: d) →
      a ++ s = b ++ t → a = b ∧ s = t := by
  intro a
  induction a with
  | nil =>
    intro b s t _ hb hs ht h
    cases b with
    | nil => exact ⟨rfl, h⟩
    | cons c b2 =>
      exfalso
      rw [List.nil_append] at h
      rcases hs with hs | ⟨d, hs⟩
      · rw [hs] at h
        exact List.cons_ne_nil c (b2 ++ t) h.symm
      · rw [hs] at h
        injection h with h1 _
        exact hb (h1 ▸ List.mem_cons_self c b2)
  | cons c a2 ih =>
    intro b s t ha hb hs ht h
    cases b with
    | nil =>
      exfalso
      rw [List.nil_append] at h
      rcases ht with ht | ⟨d, ht⟩
      · rw [ht, List.cons_append] at h
        exact List.cons_ne_nil c (a2 ++ s) h
      · rw [ht] at h
        injection h with h1 _
        exact ha (h1 ▸ List.mem_cons_self c a2)
    | cons c2 b2 =>
      rw [List.cons_append, List.cons_append] at h
      injection h with h1 h2
      obtain ⟨hab, hst⟩ := ih b2 s t
        (fun hm => ha (List.mem_cons_of_mem _ hm))
        (fun hm => hb (List.mem_cons_of_mem _ hm)) hs ht h2
      exact ⟨by rw [h1, hab], hst⟩

theorem identRender_plain_ne_suffixed {m1 m2 : String} {n2 : Nat}
    (h1 : '#' ∉ m1.data) (h2 : '#' ∉ m2.data) :
    m1 ≠ m2 ++ "#" ++ String.mk (natDecimal n2) := by
  intro h
  have hd := congrArg String.data h
  rw [String.data_append, String.data_append,
    show ("#" : String).data = ['#'] from rfl,
    show (String.mk (natDecimal n2)).data = natDecimal n2 from rfl,
    List.append_assoc, List.singleton_append] at hd
  have hd2 : m1.data ++ [] = m2.data ++ ('#' :: natDecimal n2) := by
    rw [List.append_nil]
    exact hd
  have hres := hashfree_append_inj m1.data m2.data [] ('#' :: natDecimal n2)
    h1 h2 (Or.inl rfl) (Or.inr ⟨_, rfl⟩) hd2
  exact List.cons_ne_nil '#' (natDecimal n2) hres.2.symm

theorem identRender_inj {m1 m2 : String} {n1 n2 : Nat}
    (h1 : '#' ∉ m1.data) (h2 : '#' ∉ m2.data)
    (h : identRender m1 n1 = identRender m2 n2) : m1 = m2 ∧ n1 = n2 := by
  unfold identRender at h
  by_cases hz1 : n1 = 0 <;> by_cases hz2 : n2 = 0
  · rw [if_pos hz1, if_pos hz2] at h
    exact ⟨h, hz1.trans hz2.symm⟩
  · rw [if_pos hz1, if_neg hz2] at h
    exact absurd h (identRender_plain_ne_suffixed h1 h2)
  · rw [if_neg hz1, if_pos hz2] at h
    exact absurd h.symm (identRender_plain_ne_suffixed h2 h1)
  · rw [if_neg hz1, if_neg hz2] at h
    have hd := congrArg String.data h
    rw [String.data_append, String.data_append, String.data_append,
      String.data_append,
      show ("#" : String).data = ['#'] from rfl,
      show (String.mk (natDecimal n1)).data = natDecimal n1 from rfl,
      show (String.mk (natDecimal n2)).data = natDecimal n2 from rfl,
      List.append_assoc, List.append_assoc,
      List.singleton_append, List.singleton_append] at hd
    have hr := hashfree_append_inj m1.data m2.data
      ('#' :: natDecimal n1) ('#' :: natDecimal n2) h1 h2
      (Or.inr ⟨_, rfl⟩) (Or.inr ⟨_, rfl⟩) hd
    refine ⟨String.ext hr.1, ?_⟩
    have hs := hr.2
    injection hs with _ hdec
    exact natDecimal_injective _ _ hdec

theorem assignIdents_mem :
    ∀ (l : List (String × String)) (seen : List String) (kv : String × String),
      kv ∈ assignIdents seen l →
      ∃ name n, (kv.1, name) ∈ l ∧ kv.2 = identRender name n ∧
        seen.count name ≤ n := by
  intro l
  induction l with
  | nil =>
    intro seen kv h
    simp [assignIdents] at h
  | cons kn rest ih =>
    intro seen kv h
    rcases List.mem_cons.1 h with he | he
    · refine ⟨kn.2, seen.count kn.2, ?_, ?_, le_refl _⟩
      · rw [he]
        exact List.mem_cons_self kn rest
      · rw [he]
    · obtain ⟨name, n, hmem, heq, hcnt⟩ := ih (seen ++ [kn.2]) kv he
      refine ⟨name, n, List.mem_cons_of_mem _ hmem, heq, ?_⟩
      have hmono : seen.count name ≤ (seen ++ [kn.2]).count name := by
        rw [List.count_append]
        omega
      omega

theorem assignIdents_values_nodup :
    ∀ (l : List (String × String)), (∀ kv ∈ l, '#' ∉ kv.2.data) →
      ∀ seen : List String, (avalues (assignIdents seen l)).Nodup := by
  intro l
  induction l with
  | nil =>
    intro _ seen
    simp [assignIdents, avalues]
  | cons kn rest ih =>
    intro hfree seen
    simp only [assignIdents, avalues, List.map_cons]
    rw [List.nodup_cons]
    constructor
    · intro hmem
      rcases List.mem_map.1 hmem with ⟨kv, hkv, hvv⟩
      obtain ⟨name, n, hmemr, heq, hcnt⟩ :=
        assignIdents_mem rest (seen ++ [kn.2]) kv hkv
      rw [heq] at hvv
      have hfree1 : '#' ∉ name.data :=
        hfree (kv.1, name) (List.mem_cons_of_mem _ hmemr)
      have hfree2 : '#' ∉ kn.2.data := hfree kn (List.mem_cons_self _ _)
      obtain ⟨hname, hnn⟩ := identRender_inj hfree1 hfree2 hvv
      rw [hname, List.count_append] at hcnt
      have hone : List.count kn.2 [kn.2] = 1 := by simp
      omega
    · exact ih (fun kv hkv => hfree kv (List.mem_cons_of_mem _ hkv))
        (seen ++ [kn.2])

theorem suffix_affordance_keys (tr : String → Bool)
    (pi : List (String × ProgramItem)) :
    akeys (suffix_affordance_primitive_segment tr pi) =
      (pi.filter (fun kv => ¬ tr kv.2.primitive)).map Prod.fst := by
  unfold suffix_affordance_primitive_segment
  rw [assignIdents_keys]
  unfold akeys
  rw [List.map_map]
  rfl

theorem suffix_transient_keys (tr : String → Bool)
    (pi : List (String × ProgramItem)) :
    akeys (suffix_transient_primitive_segment tr pi) =
      (pi.filter (fun kv => tr kv.2.primitive)).map Prod.fst := by
  unfold suffix_transient_primitive_segment
  rw [assignIdents_keys]
  unfold akeys
  rw [List.map_map]
  rfl

theorem suffix_transient_keys_nodup (tr : String → Bool)
    (pi : List (String × ProgramItem)) (h : (akeys pi).Nodup) :
    (akeys (suffix_transient_primitive_segment tr pi)).Nodup := by
  rw [suffix_transient_keys]
  exact List.Nodup.sublist (List.Sublist.map _ (List.filter_sublist _)) h

theorem suffix_affordance_value_form (tr : String → Bool)
    (pi : List (String × ProgramItem)) {v : String}
    (hv : v ∈ avalues (suffix_affordance_primitive_segment tr pi)) :
    ∃ (kv0 : String × ProgramItem) (n : Nat), kv0 ∈ pi ∧
      tr kv0.2.primitive = false ∧ v = identRender kv0.2.primitive n := by
  unfold suffix_affordance_primitive_segment at hv
  rcases List.mem_map.1 hv with ⟨kv, hkv, hvv⟩
  obtain ⟨name, n, hmem, heq, _⟩ := assignIdents_mem _ [] kv hkv
  rcases List.mem_map.1 hmem with ⟨kv0, hkv0, he0⟩
  have hname : kv0.2.primitive = name := congrArg Prod.snd he0
  have hfil := List.mem_filter.1 hkv0
  refine ⟨kv0, n, hfil.1, ?_, ?_⟩
  · have hcond := hfil.2
    simp only [decide_eq_true_eq] at hcond
    cases htr : tr kv0.2.primitive
    · rfl
    · exact absurd htr hcond
  · rw [← hvv, heq, hname]

theorem suffix_transient_value_form (tr : String → Bool)
    (pi : List (String × ProgramItem)) {v : String}
    (hv : v ∈ avalues (suffix_transient_primitive_segment tr pi)) :
    ∃ (kv0 : String × ProgramItem) (n : Nat), kv0 ∈ pi ∧
      tr kv0.2.primitive = true ∧ v = identRender kv0.2.primitive n := by
  unfold suffix_transient_primitive_segment at hv
  rcases List.mem_map.1 hv with ⟨kv, hkv, hvv⟩
  obtain ⟨name, n, hmem, heq, _⟩ := assignIdents_mem _ [] kv hkv
  rcases List.mem_map.1 hmem with ⟨kv0, hkv0, he0⟩
  have hname : kv0.2.primitive = name := congrArg Prod.snd he0
  have hfil := List.mem_filter.1 hkv0
  exact ⟨kv0, n, hfil.1, hfil.2, by rw [← hvv, heq, hname]⟩

theorem suffix_values_disjoint (tr : String → Bool)
    (pi : List (String × ProgramItem))
    (hhash : ∀ kv ∈ pi, '#' ∉ kv.2.primitive.data) :
    ∀ v ∈ avalues (suffix_affordance_primitive_segment tr pi),
      v ∉ avalues (suffix_transient_primitive_segment tr pi) := by
  intro v hva hvt
  obtain ⟨kv1, n1, hm1, htr1, he1⟩ := suffix_affordance_value_form tr pi hva
  obtain ⟨kv2, n2, hm2, htr2, he2⟩ := suffix_transient_value_form tr pi hvt
  have h := he1.symm.trans he2
  obtain ⟨hname, _⟩ := identRender_inj (hhash kv1 hm1) (hhash kv2 hm2) h
  rw [hname, htr2] at htr1
  exact absurd htr1 (by simp)

theorem suffix_affordance_values_nodup (tr : String → Bool)
    (pi : List (String × ProgramItem))
    (hhash : ∀ kv ∈ pi, '#' ∉ kv.2.primitive.data) :
    (avalues (suffix_affordance_primitive_segment tr pi)).Nodup := by
  unfold suffix_affordance_primitive_segment
  apply assignIdents_values_nodup
  intro kv hkv
  rcases List.mem_map.1 hkv with ⟨kv0, hkv0, he0⟩
  have he : kv0.2.primitive = kv.2 := congrArg Prod.snd he0
  rw [← he]
  exact hhash kv0 (List.mem_filter.1 hkv0).1

theorem suffix_transient_values_nodup (tr : String → Bool)
    (pi : List (String × ProgramItem))
    (hhash : ∀ kv ∈ pi, '#' ∉ kv.2.primitive.data) :
    (avalues (suffix_transient_primitive_segment tr pi)).Nodup := by
  unfold suffix_transient_primitive_segment
  apply assignIdents_values_nodup
  intro kv hkv
  rcases List.mem_map.1 hkv with ⟨kv0, hkv0, he0⟩
  have he : kv0.2.primitive = kv.2 := congrArg Prod.snd he0
  rw [← he]
  exact hhash kv0 (List.mem_filter.1 hkv0).1

theorem suffix_keys_disjoint (tr : String → Bool)
    (pi : List (String × ProgramItem)) (hk : (akeys pi).Nodup) :
    ∀ kv ∈ suffix_transient_primitive_segment tr pi,
      (alookup (suffix_affordance_primitive_segment tr pi) kv.1).isNone := by
  intro kv hkv
  rw [Option.isNone_iff_eq_none, alookup_eq_none_iff]
  intro hmem
  rw [suffix_affordance_keys] at hmem
  have hkt : kv.1 ∈ akeys (suffix_transient_primitive_segment tr pi) :=
    List.mem_map_of_mem Prod.fst hkv
  rw [suffix_transient_keys] at hkt
  rcases List.mem_map.1 hmem with ⟨kv1, hkv1, he1⟩
  rcases List.mem_map.1 hkt with ⟨kv2, hkv2, he2⟩
  have h1 := List.mem_filter.1 hkv1
  have h2 := List.mem_filter.1 hkv2
  have heq := List.inj_on_of_nodup_map (f := Prod.fst) hk h1.1 h2.1
    (he1.trans he2.symm)
  have hc1 := h1.2
  simp only [decide_eq_true_eq] at hc1
  rw [heq] at hc1
  exact hc1 h2.2

theorem merge_of_disjoint :
    ∀ (b a : List (String × String)), (akeys b).Nodup →
      (∀ kv ∈ b, (alookup a kv.1).isNone) →
      merge_task_namemap a b = a ++ b := by
  intro b
  induction b with
  | nil =>
    intro a _ _
    unfold merge_task_namemap
    rw [List.foldl_nil, List.append_nil]
  | cons kv t ih =>
    intro a hnd hdisj
    unfold merge_task_namemap
    rw [List.foldl_cons]
    have hnone := hdisj kv (List.mem_cons_self _ _)
    have hupd : aupdate a kv.1 kv.2 = a ++ [kv] := by
      unfold aupdate
      rw [if_neg (by
        rw [Option.isNone_iff_eq_none] at hnone
        rw [hnone]
        simp)]
    rw [hupd]
    have hdisj2 : ∀ kv2 ∈ t, (alookup (a ++ [kv]) kv2.1).isNone := by
      intro kv2 hkv2
      rw [Option.isNone_iff_eq_none, alookup_append]
      have h1 : alookup a kv2.1 = none :=
        Option.isNone_iff_eq_none.1 (hdisj kv2 (List.mem_cons_of_mem _ hkv2))
      rw [h1]
      have hne : kv.1 ≠ kv2.1 := by
        intro he
        exact (List.nodup_cons.1 hnd).1
          (he ▸ List.mem_map_of_mem Prod.fst hkv2)
      simp [alookup, hne]
    have ht := ih (a ++ [kv]) (List.nodup_cons.1 hnd).2 hdisj2
    unfold merge_task_namemap at ht
    rw [ht, List.append_assoc, List.singleton_append]

theorem alookup_append_isSome {l1 l2 : List (String × String)} (k : String) :
    (alookup (l1 ++ l2) k).isSome ↔
      (alookup l1 k).isSome ∨ (alookup l2 k).isSome := by
  rw [alookup_append]
  cases alookup l1 k <;> simp

theorem reorder_keys :
    ∀ (pi : List (String × ProgramItem)) (m : List (String × String)),
      (∀ k ∈ akeys pi, (alookup m k).isSome) →
      akeys (reorder_task_namemap pi m) = akeys pi := by
  intro pi
  induction pi with
  | nil => intro m _; rfl
  | cons kv t ih =>
    intro m hT
    unfold reorder_task_namemap
    rw [List.filterMap_cons]
    obtain ⟨w, hw⟩ := Option.isSome_iff_exists.1
      (hT kv.1 (List.mem_map_of_mem Prod.fst (List.mem_cons_self kv t)))
    rw [hw]
    show akeys ((kv.1, w) :: List.filterMap _ t) = akeys (kv :: t)
    unfold akeys
    rw [List.map_cons, List.map_cons]
    have hre := ih m (fun k hk => hT k (by
      unfold akeys at hk ⊢
      rw [List.map_cons]
      exact List.mem_cons_of_mem _ hk))
    unfold reorder_task_namemap akeys at hre
    rw [hre]

theorem reorder_values_mem :
    ∀ (pi : List (String × ProgramItem)) (m : List (String × String))
      {v : String}, v ∈ avalues (reorder_task_namemap pi m) →
      ∃ k ∈ akeys pi, alookup m k = some v := by
  intro pi
  induction pi with
  | nil =>
    intro m v hv
    simp [reorder_task_namemap, avalues] at hv
  | cons kv t ih =>
    intro m v hv
    unfold reorder_task_namemap at hv
    rw [List.filterMap_cons] at hv
    cases hw : alookup m kv.1 with
    | none =>
      rw [hw] at hv
      obtain ⟨k, hk, hlk⟩ := ih m hv
      refine ⟨k, ?_, hlk⟩
      unfold akeys at hk ⊢
      rw [List.map_cons]
      exact List.mem_cons_of_mem _ hk
    | some w =>
      rw [hw] at hv
      show ∃ k ∈ akeys (kv :: t), alookup m k = some v
      have hv2 : v ∈ avalues ((kv.1, w) :: reorder_task_namemap t m) := hv
      unfold avalues at hv2
      rw [List.map_cons] at hv2
      rcases List.mem_cons.1 hv2 with he | he
      · refine ⟨kv.1, List.mem_map_of_mem Prod.fst (List.mem_cons_self kv t),
          ?_⟩
        rw [hw, he]
      · obtain ⟨k, hk, hlk⟩ := ih m he
        refine ⟨k, ?_, hlk⟩
        unfold akeys at hk ⊢
        rw [List.map_cons]
        exact List.mem_cons_of_mem _ hk

theorem reorder_values_nodup :
    ∀ (pi : List (String × ProgramItem)) (m : List (String × String)),
      (akeys pi).Nodup → (avalues m).Nodup →
      (∀ k ∈ akeys pi, (alookup m k).isSome) →
      (avalues (reorder_task_namemap pi m)).Nodup := by
  intro pi
  induction pi with
  | nil =>
    intro m _ _ _
    simp [reorder_task_namemap, avalues]
  | cons kv t ih =>
    intro m hk hmv hT
    unfold reorder_task_namemap
    rw [List.filterMap_cons]
    obtain ⟨w, hw⟩ := Option.isSome_iff_exists.1
      (hT kv.1 (List.mem_map_of_mem Prod.fst (List.mem_cons_self kv t)))
    rw [hw]
    show (avalues ((kv.1, w) :: reorder_task_namemap t m)).Nodup
    unfold avalues
    rw [List.map_cons, List.nodup_cons]
    have hknd : (akeys t).Nodup ∧ kv.1 ∉ akeys t := by
      unfold akeys at hk
      rw [List.map_cons, List.nodup_cons] at hk
      exact ⟨hk.2, hk.1⟩
    constructor
    · intro hmem
      obtain ⟨k, hkt, hlk⟩ := reorder_values_mem t m
        (show w ∈ avalues (reorder_task_namemap t m) from hmem)
      have hne : kv.1 ≠ k := fun he => hknd.2 (he ▸ hkt)
      exact values_inj_of_nodup_values hmv hw hlk hne rfl
    · have := ih m hknd.1 hmv (fun k hkt => hT k (by
        unfold akeys at hkt ⊢
        rw [List.map_cons]
        exact List.mem_cons_of_mem _ hkt))
      unfold avalues at this
      exact this

/-- C6: for any program metadata with unique keys whose task names avoid the
`#` disambiguation separator, the merged, reordered full task name-map is a
bijection with the metadata's key set — every key kept in exactly the
original key order, and no identifier duplicated. -/
theorem full_task_namemap_bijection_in_key_order
    (tr : String → Bool) (pi : List (String × ProgramItem))
    (hk : (akeys pi).Nodup)
    (hhash : ∀ kv ∈ pi, '#' ∉ kv.2.primitive.data) :
    akeys (full_task_namemap tr pi) = akeys pi ∧
    (avalues (full_task_namemap tr pi)).Nodup := by
  have hmerge : merge_task_namemap
      (suffix_affordance_primitive_segment tr pi)
      (suffix_transient_primitive_segment tr pi) =
      suffix_affordance_primitive_segment tr pi ++
        suffix_transient_primitive_segment tr pi :=
    merge_of_disjoint _ _ (suffix_transient_keys_nodup tr pi hk)
      (suffix_keys_disjoint tr pi hk)
  have hTot : ∀ k ∈ akeys pi,
      (alookup (merge_task_namemap
        (suffix_affordance_primitive_segment tr pi)
        (suffix_transient_primitive_segment tr pi)) k).isSome := by
    intro k hkp
    rw [hmerge, alookup_append_isSome]
    rcases List.mem_map.1 hkp with ⟨kv, hkv, he⟩
    cases htr : tr kv.2.primitive
    · left
      rw [alookup_isSome_iff, suffix_affordance_keys]
      exact List.mem_map.2 ⟨kv, List.mem_filter.2 ⟨hkv, by simp [htr]⟩, he⟩
    · right
      rw [alookup_isSome_iff, suffix_transient_keys]
      exact List.mem_map.2 ⟨kv, List.mem_filter.2 ⟨hkv, by simp [htr]⟩, he⟩
  have hMv : (avalues (merge_task_namemap
      (suffix_affordance_primitive_segment tr pi)
      (suffix_transient_primitive_segment tr pi))).Nodup := by
    rw [hmerge]
    unfold avalues
    rw [List.map_append]
    refine List.Nodup.append ?_ ?_ ?_
    · exact suffix_affordance_values_nodup tr pi hhash
    · exact suffix_transient_values_nodup tr pi hhash
    · exact List.disjoint_left.2 (fun {v} hva hvt =>
        suffix_values_disjoint tr pi hhash v hva hvt)
  unfold full_task_namemap
  exact ⟨reorder_keys pi _ hTot, reorder_values_nodup pi _ hk hMv hTot⟩

/-- Witness for C6 on a three-entry metadata with a repeated task name. -/
theorem full_task_namemap_bijection_in_key_order_witness :
    akeys (full_task_namemap (fun s => s = "move")
      [("('k1',)", { primitive := "pour" }),
       ("('k2',)", { primitive := "move" }),
       ("('k3',)", { primitive := "pour" })]) =
      akeys [("('k1',)", ({ primitive := "pour" } : ProgramItem)),
       ("('k2',)", { primitive := "move" }),
       ("('k3',)", { primitive := "pour" })] ∧
    (avalues (full_task_namemap (fun s => s = "move")
      [("('k1',)", { primitive := "pour" }),
       ("('k2',)", { primitive := "move" }),
       ("('k3',)", { primitive := "pour" })])).Nodup :=
  full_task_namemap_bijection_in_key_order (fun s => s = "move")
    [("('k1',)", { primitive := "pour" }),
     ("('k2',)", { primitive := "move" }),
     ("('k3',)", { primitive := "pour" })]
    (by decide) (by decide)

end OakInk2
